import Mathlib

/-!
# Verification of the TupleVariation binary codec

Shallow embedding of `Lib/fontTools/ttLib/tables/TupleVariation.py`:
the packed point-number codec, the run-length delta codec, the tuple
header compiler and the header-size calculator, together with proofs of
the round-trip and layout laws stated in the specification.

Bytes are modelled as natural numbers; every byte emitted by an encoder
is produced through `bytechr`, which (like the Python `bytechr`) only
accepts values in `[0, 256)` and fails otherwise.  Fallible Python code
(`assert`, `struct.error`, `IndexError`, `ValueError`) is modelled with
`Option`.
-/

/-! ## Byte-level helpers (`fontTools.misc.py23` / `struct` / `array`) -/

/-- Python `bytechr(n)` (`bytes([n])`): a single byte, defined only for
`0 ≤ n < 256`; any other argument raises `ValueError`. -/
def bytechr (n : ℤ) : Option ℕ :=
  if 0 ≤ n ∧ n < 256 then some n.toNat else none

/-- Python `struct.pack('b', v)`: one signed byte; raises for values
outside `[-128, 127]`. -/
def packInt8 (v : ℤ) : Option ℕ :=
  if -128 ≤ v ∧ v ≤ 127 then some (v % 256).toNat else none

/-- Python `struct.pack('>h', v)`: big-endian signed 16-bit; raises for
values outside `[-32768, 32767]`. -/
def packInt16 (v : ℤ) : Option (List ℕ) :=
  if -32768 ≤ v ∧ v ≤ 32767 then
    some [((v % 65536) / 256).toNat, ((v % 65536) % 256).toNat]
  else none

/-- Python `struct.pack('>H', n)`: big-endian unsigned 16-bit; raises for
values outside `[0, 65535]`. -/
def packUInt16 (n : ℕ) : Option (List ℕ) :=
  if n ≤ 65535 then some [n / 256, n % 256] else none

/-- `array.array("b")` decoding of one byte: two's-complement signed. -/
def int8OfByte (b : ℕ) : ℤ :=
  if b < 128 then (b : ℤ) else (b : ℤ) - 256

/-- `array.array("h")` decoding of a big-endian byte pair. -/
def int16OfBytes (hi lo : ℕ) : ℤ :=
  let u := hi * 256 + lo
  if u < 32768 then (u : ℤ) else (u : ℤ) - 65536

/-- Interpret a flat byte list as consecutive big-endian signed words
(`array("h")` + byteswap in `decompileDeltas_`). -/
def signedWords : List ℕ → List ℤ
  | hi :: lo :: rest => int16OfBytes hi lo :: signedWords rest
  | _ => []

/-- Interpret a flat byte list as signed bytes (`array("b")`). -/
def signedBytes (l : List ℕ) : List ℤ := l.map int8OfByte

/-- Interpret a flat byte list as consecutive big-endian unsigned words
(`array("H")` + byteswap in `decompilePoints_`). -/
def unsignedWords : List ℕ → List ℕ
  | hi :: lo :: rest => (hi * 256 + lo) :: unsignedWords rest
  | _ => []

/-- Python `data[pos:pos+size]` followed by the decoder's
`assert len(...) == size`: the slice must be fully inside the data. -/
def readSlice (data : List ℕ) (pos size : ℕ) : Option (List ℕ) :=
  if pos + size ≤ data.length then some ((data.drop pos).take size) else none

/-! ## Constants (`TupleVariation.py`, lines 14-23) -/

def EMBEDDED_PEAK_TUPLE : ℕ := 0x8000
def INTERMEDIATE_REGION : ℕ := 0x4000
def PRIVATE_POINT_NUMBERS : ℕ := 0x2000

def DELTAS_ARE_ZERO : ℕ := 0x80
def DELTAS_ARE_WORDS : ℕ := 0x40
def DELTA_RUN_COUNT_MASK : ℕ := 0x3f

def POINTS_ARE_WORDS : ℕ := 0x80
def POINT_RUN_COUNT_MASK : ℕ := 0x7f

/-- Apply a fallible packer to every element, failing as soon as one
raises (the `Option`-valued map used by the run encoders). -/
def mapOption (f : α → Option β) : List α → Option (List β)
  | [] => some []
  | a :: rest =>
    match f a, mapOption f rest with
    | some b, some bs => some (b :: bs)
    | _, _ => none

/-! ## Delta-value encoder (`compileDeltaValues_` and the three run encoders) -/

/-- Loop of `encodeDeltaRunAsZeroes_` (lines 336-341): count leading
zeroes, stopping at 64 per run.  Returns the final `runLength` and the
remaining deltas. -/
def zeroRunGo : List ℤ → ℕ → ℕ × List ℤ
  | [], runLength => (runLength, [])
  | v :: rest, runLength =>
    if runLength < 64 ∧ v = 0 then zeroRunGo rest (runLength + 1)
    else (runLength, v :: rest)

/-- `encodeDeltaRunAsZeroes_` (lines 334-344): header byte
`DELTAS_ARE_ZERO | (runLength - 1)`, no payload.  The `assert
1 ≤ runLength ≤ 64` is modelled by the guard. -/
def encodeDeltaRunAsZeroes_ (deltas : List ℤ) : Option (List ℕ × List ℤ) :=
  let (runLength, rem) := zeroRunGo deltas 0
  if 1 ≤ runLength ∧ runLength ≤ 64 then
    some ([DELTAS_ARE_ZERO ||| (runLength - 1)], rem)
  else none

/-- Loop of `encodeDeltaRunAsBytes_` (lines 348-366): consume values
while they fit a signed byte, stopping at 64, and stopping early when the
current value is zero and the next one is zero as well.  Returns the
consumed values and the remaining deltas. -/
def byteRunGo : List ℤ → ℕ → List ℤ × List ℤ
  | [], _ => ([], [])
  | v :: rest, runLength =>
    if runLength < 64 then
      if v < -128 ∨ 127 < v then ([], v :: rest)
      else if v = 0 ∧ rest.head? = some 0 then ([], v :: rest)
      else
        let (c, rem) := byteRunGo rest (runLength + 1)
        (v :: c, rem)
    else ([], v :: rest)

/-- `encodeDeltaRunAsBytes_` (lines 346-371): header byte
`runLength - 1`, payload `struct.pack('b', v)` for each consumed value. -/
def encodeDeltaRunAsBytes_ (deltas : List ℤ) : Option (List ℕ × List ℤ) :=
  let (c, rem) := byteRunGo deltas 0
  if 1 ≤ c.length ∧ c.length ≤ 64 then
    match mapOption packInt8 c with
    | some payload => some ((c.length - 1) :: payload, rem)
    | none => none
  else none

/-- The `isByteEncodable` lambda of `encodeDeltaRunAsWords_` (line 396). -/
def isByteEncodable (value : ℤ) : Bool := -128 ≤ value && value ≤ 127

/-- Loop of `encodeDeltaRunAsWords_` (lines 375-400): consume values,
stopping at 64, stopping early on a zero value, and stopping early when
the current and next values are both byte-encodable. -/
def wordRunGo : List ℤ → ℕ → List ℤ × List ℤ
  | [], _ => ([], [])
  | v :: rest, runLength =>
    if runLength < 64 then
      if v = 0 then ([], v :: rest)
      else if isByteEncodable v &&
          (match rest.head? with
           | some w => isByteEncodable w
           | none => false) then ([], v :: rest)
      else
        let (c, rem) := wordRunGo rest (runLength + 1)
        (v :: c, rem)
    else ([], v :: rest)

/-- `encodeDeltaRunAsWords_` (lines 373-405): header byte
`DELTAS_ARE_WORDS | (runLength - 1)`, payload `struct.pack('>h', v)` for
each consumed value. -/
def encodeDeltaRunAsWords_ (deltas : List ℤ) : Option (List ℕ × List ℤ) :=
  let (c, rem) := wordRunGo deltas 0
  if 1 ≤ c.length ∧ c.length ≤ 64 then
    match mapOption packInt16 c with
    | some payloads => some ((DELTAS_ARE_WORDS ||| (c.length - 1)) :: payloads.flatten, rem)
    | none => none
  else none

/-- Outer loop of `compileDeltaValues_` (lines 322-332), with explicit
fuel (each run consumes at least one delta, so `deltas.length` fuel is
always enough). -/
def compileDeltaValuesGo : ℕ → List ℤ → Option (List ℕ)
  | _, [] => some []
  | 0, _ :: _ => none
  | fuel + 1, v :: rest =>
    let run :=
      if v = 0 then encodeDeltaRunAsZeroes_ (v :: rest)
      else if -128 ≤ v ∧ v ≤ 127 then encodeDeltaRunAsBytes_ (v :: rest)
      else encodeDeltaRunAsWords_ (v :: rest)
    match run with
    | none => none
    | some (runBytes, rem) =>
      match compileDeltaValuesGo fuel rem with
      | none => none
      | some rest' => some (runBytes ++ rest')

/-- `compileDeltaValues_` (lines 305-332): encode a delta sequence as a
concatenation of zero-, byte- and word-runs. -/
def compileDeltaValues_ (deltas : List ℤ) : Option (List ℕ) :=
  compileDeltaValuesGo deltas.length deltas

/-! ## Delta-value decoder (`decompileDeltas_`, lines 407-432) -/

/-- Loop of `decompileDeltas_`: `needed` is `numDeltas - len(result)`.
A run whose count overshoots `needed` makes the final
`assert len(result) == numDeltas` fail, hence `none`.  The fuel is
initialized to `numDeltas`; since every run appends at least one value
it never runs out before `needed` does. -/
def decompileDeltasGo (data : List ℕ) : ℕ → ℕ → ℕ → Option (List ℤ × ℕ)
  | 0, _, pos => some ([], pos)
  | _ + 1, 0, _ => none
  | needed + 1, fuel + 1, pos =>
    match data[pos]? with
    | none => none
    | some runHeader =>
      let numDeltasInRun := (runHeader &&& DELTA_RUN_COUNT_MASK) + 1
      if runHeader &&& DELTAS_ARE_ZERO ≠ 0 then
        if numDeltasInRun ≤ needed + 1 then
          match decompileDeltasGo data (needed + 1 - numDeltasInRun) fuel (pos + 1) with
          | none => none
          | some (r, p) => some (List.replicate numDeltasInRun (0 : ℤ) ++ r, p)
        else none
      else if runHeader &&& DELTAS_ARE_WORDS ≠ 0 then
        if numDeltasInRun ≤ needed + 1 then
          match readSlice data (pos + 1) (numDeltasInRun * 2) with
          | none => none
          | some slice =>
            match decompileDeltasGo data (needed + 1 - numDeltasInRun) fuel
                (pos + 1 + numDeltasInRun * 2) with
            | none => none
            | some (r, p) => some (signedWords slice ++ r, p)
        else none
      else
        if numDeltasInRun ≤ needed + 1 then
          match readSlice data (pos + 1) numDeltasInRun with
          | none => none
          | some slice =>
            match decompileDeltasGo data (needed + 1 - numDeltasInRun) fuel
                (pos + 1 + numDeltasInRun) with
            | none => none
            | some (r, p) => some (signedBytes slice ++ r, p)
        else none

/-- `decompileDeltas_` (lines 407-432):
`(numDeltas, data, offset) --> ([delta, delta, ...], newOffset)`. -/
def decompileDeltas_ (numDeltas : ℕ) (data : List ℕ) (offset : ℕ) :
    Option (List ℤ × ℕ) :=
  decompileDeltasGo data numDeltas numDeltas offset

/-! ## Point-number encoder (`compilePoints`, lines 188-244) -/

/-- Inner run loop of `compilePoints` (lines 216-236).  Arguments mirror
the Python locals: remaining sorted points, `lastValue`, `runLength` and
`useByteEncoding` (`none` before the first iteration).  Returns the run
payload, the final `runLength` and `useByteEncoding`, the unconsumed
points and the final `lastValue`.  Deltas are computed in `ℤ` exactly as
Python computes `curValue - lastValue`; `delta >> 8` is floor division
(`Int.fdiv`) and `delta & 0xff` is `Int.emod`, both as in Python. -/
def pointRunGo : List ℕ → ℕ → ℕ → Option Bool →
    Option (List ℕ × ℕ × Option Bool × List ℕ × ℕ)
  | [], lastValue, runLength, useByte => some ([], runLength, useByte, [], lastValue)
  | cur :: rest, lastValue, runLength, useByte =>
    if runLength ≤ 127 then
      let delta : ℤ := (cur : ℤ) - (lastValue : ℤ)
      let useByte := match useByte with
        | none => some (decide (0 ≤ delta ∧ delta ≤ 0xff))
        | some b => some b
      if useByte = some true ∧ (0xff < delta ∨ delta < 0) then
        some ([], runLength, useByte, cur :: rest, lastValue)
      else
        match (if useByte = some true then
                 match bytechr delta with
                 | some b => some [b]
                 | none => none
               else
                 match bytechr (Int.fdiv delta 256), bytechr (delta % 256) with
                 | some hi, some lo => some [hi, lo]
                 | _, _ => none) with
        | none => none
        | some bs =>
          match pointRunGo rest cur (runLength + 1) useByte with
          | none => none
          | some (bs', runLength', useByte', rem, lastValue') =>
            some (bs ++ bs', runLength', useByte', rem, lastValue')
    else some ([], runLength, useByte, cur :: rest, lastValue)

/-- Outer run loop of `compilePoints` (lines 215-242), with explicit
fuel (every run consumes at least one point, so `points.length` fuel is
always enough).  The word-run header `(runLength - 1) | 0x80` is `none`
when `runLength = 0` because in Python `(-1) | 0x80 = -1` and
`bytechr(-1)` raises. -/
def compilePointsRunsGo : ℕ → List ℕ → ℕ → Option (List ℕ)
  | _, [], _ => some []
  | 0, _ :: _, _ => none
  | fuel + 1, cur :: rest, lastValue =>
    match pointRunGo (cur :: rest) lastValue 0 none with
    | none => none
    | some (payload, runLength, useByte, rem, lastValue') =>
      match (if useByte = some true then bytechr ((runLength : ℤ) - 1)
             else if runLength = 0 then none
             else bytechr (((runLength - 1) ||| POINTS_ARE_WORDS : ℕ) : ℤ)) with
      | none => none
      | some header =>
        match compilePointsRunsGo fuel rem lastValue' with
        | none => none
        | some restBytes => some (header :: payload ++ restBytes)

/-- `compilePoints` (lines 188-244): the all-points shortcut, the one- or
two-byte count, then the delta-encoded runs. -/
def compilePoints (points : Finset ℕ) (numPointsInGlyph : ℕ) : Option (List ℕ) :=
  if points.card = numPointsInGlyph then some [0]
  else
    let pts := points.sort (· ≤ ·)
    let numPoints := pts.length
    match (if numPoints < 0x80 then
             match bytechr (numPoints : ℤ) with
             | some b => some [b]
             | none => none
           else
             match bytechr ((((numPoints >>> 8) ||| 0x80 : ℕ)) : ℤ),
                 bytechr (((numPoints &&& 0xff : ℕ)) : ℤ) with
             | some hi, some lo => some [hi, lo]
             | _, _ => none) with
    | none => none
    | some countBytes =>
      match compilePointsRunsGo numPoints pts 0 with
      | none => none
      | some runBytes => some (countBytes ++ runBytes)

/-! ## Point-number decoder (`decompilePoints_`, lines 246-293) -/

/-- Count parsing of `decompilePoints_` (lines 251-255): one byte, or two
bytes when the high bit of the first is set.  Returns the count and the
new position. -/
def parsePointCount (data : List ℕ) (offset : ℕ) : Option (ℕ × ℕ) :=
  match data[offset]? with
  | none => none
  | some b0 =>
    if b0 &&& POINTS_ARE_WORDS ≠ 0 then
      match data[offset + 1]? with
      | none => none
      | some b1 => some (((b0 &&& POINT_RUN_COUNT_MASK) <<< 8) ||| b1, offset + 2)
    else some (b0, offset + 1)

/-- Run loop of `decompilePoints_` (lines 259-278): `needed` is
`numPointsInData - len(result)`; the loop exits as soon as it reaches
zero (a run may overshoot it — there is no final count assertion here).
Fuel is initialized to `numPointsInData`; every run appends at least one
value, so it never runs out before `needed` does. -/
def decodePointRunsGo (data : List ℕ) : ℕ → ℕ → ℕ → Option (List ℕ × ℕ)
  | 0, _, pos => some ([], pos)
  | _ + 1, 0, _ => none
  | needed + 1, fuel + 1, pos =>
    match data[pos]? with
    | none => none
    | some runHeader =>
      let numPointsInRun := (runHeader &&& POINT_RUN_COUNT_MASK) + 1
      if runHeader &&& POINTS_ARE_WORDS ≠ 0 then
        match readSlice data (pos + 1) (numPointsInRun * 2) with
        | none => none
        | some slice =>
          match decodePointRunsGo data (needed + 1 - numPointsInRun) fuel
              (pos + 1 + numPointsInRun * 2) with
          | none => none
          | some (rest, p) => some (unsignedWords slice ++ rest, p)
      else
        match readSlice data (pos + 1) numPointsInRun with
        | none => none
        | some slice =>
          match decodePointRunsGo data (needed + 1 - numPointsInRun) fuel
              (pos + 1 + numPointsInRun) with
          | none => none
          | some (rest, p) => some (slice ++ rest, p)

/-- Relative-to-absolute conversion of `decompilePoints_` (lines 280-287):
a running sum over the decoded deltas. -/
def absolutize (current : ℕ) : List ℕ → List ℕ
  | [] => []
  | delta :: rest => (current + delta) :: absolutize (current + delta) rest

/-- `decompilePoints_` (lines 246-293):
`(numPoints, data, offset, tableTag) --> ([point1, point2, ...], newOffset)`.
A decoded count of zero yields `range(numPoints)`.  Out-of-range points
only trigger `log.warning` in the source, which has no effect on the
returned value, so it is not modelled. -/
def decompilePoints_ (numPoints : ℕ) (data : List ℕ) (offset : ℕ)
    (tableTag : String) : Option (List ℕ × ℕ) :=
  if tableTag = "cvar" ∨ tableTag = "gvar" then
    match parsePointCount data offset with
    | none => none
    | some (numPointsInData, pos) =>
      if numPointsInData = 0 then some (List.range numPoints, pos)
      else
        match decodePointRunsGo data numPointsInData numPointsInData pos with
        | none => none
        | some (rel, pos') => some (absolutize 0 rel, pos')
  else none


/-! ## Header compiler (`compile`, `compileCoord`, `compileIntermediateCoord`,
`compileDeltas`, `getUsedPoints`) and `getTupleSize_`

Axis values are modelled as rationals.  `fontTools.misc.fixedTools.floatToFixed`
is not part of the sources under verification, so it is modelled from the
specification. -/

/-- Modelled from the spec: `floatToFixed` (from `fontTools.misc.fixedTools`,
not under src/) which §4.2 defines as the stored value
`round(real · 2^precisionBits)`, clamped to `[-32768, 32767]`. -/
def floatToFixed (value : ℚ) (precisionBits : ℕ) : ℤ :=
  max (-32768) (min 32767 (round (value * 2 ^ precisionBits)))

/-- `struct.pack(">h", v)` for an F2DOT14 value: since `floatToFixed`
clamps into `[-32768, 32767]`, the pack never raises, so it is total. -/
def packF2Dot14 (value : ℚ) : List ℕ :=
  let v := floatToFixed value 14
  [((v % 65536) / 256).toNat, ((v % 65536) % 256).toNat]

/-- `compileCoord` (lines 144-149): each axis of `axisTags` contributes
its peak value, a missing axis contributing `(0, 0, 0)`. -/
def compileCoord (axes : List (String × (ℚ × ℚ × ℚ))) (axisTags : List String) :
    List ℕ :=
  (axisTags.map fun axis => packF2Dot14 ((axes.lookup axis).getD (0, 0, 0)).2.1).flatten

/-- `compileIntermediateCoord` (lines 151-168): `None` unless some axis
has a non-default `(minValue, maxValue)`; otherwise all min coords
followed by all max coords. -/
def compileIntermediateCoord (axes : List (String × (ℚ × ℚ × ℚ)))
    (axisTags : List String) : Option (List ℕ) :=
  let needed := axisTags.any fun axis =>
    let t := (axes.lookup axis).getD (0, 0, 0)
    let defaultMinValue := min t.2.1 0
    let defaultMaxValue := max t.2.1 0
    decide (t.1 ≠ defaultMinValue ∨ t.2.2 ≠ defaultMaxValue)
  if needed then
    some ((axisTags.map fun axis => packF2Dot14 ((axes.lookup axis).getD (0, 0, 0)).1).flatten
      ++ (axisTags.map fun axis => packF2Dot14 ((axes.lookup axis).getD (0, 0, 0)).2.2).flatten)
  else none

/-- `getUsedPoints` (lines 40-45): the indices whose coordinate is set. -/
def getUsedPoints (coordinates : List (Option (ℤ × ℤ))) : Finset ℕ :=
  (Finset.range coordinates.length).filter fun i => (coordinates.getD i none).isSome

/-- `compileDeltas` (lines 295-303): gather the set coordinates of the
sorted points (an out-of-range point raises `IndexError`), then encode
the X stream followed by the Y stream. -/
def compileDeltas (coordinates : List (Option (ℤ × ℤ))) (points : Finset ℕ) :
    Option (List ℕ) :=
  match (points.sort (· ≤ ·)).mapM (fun p => coordinates[p]?) with
  | none => none
  | some cs =>
    let used := cs.filterMap id
    match compileDeltaValues_ (used.map Prod.fst), compileDeltaValues_ (used.map Prod.snd) with
    | some bx, some bY => some (bx ++ bY)
    | _, _ => none

/-- `compile` (lines 116-142): choose a shared coordinate index or embed
the peak tuple, append the intermediate region when needed, use shared or
private point numbers, and prepend the `>HH` header. -/
def TupleVariation.compile (axes : List (String × (ℚ × ℚ × ℚ)))
    (coordinates : List (Option (ℤ × ℤ))) (axisTags : List String)
    (sharedCoordIndices : List (List ℕ × ℕ)) (sharedPoints : Option (Finset ℕ)) :
    Option (List ℕ × List ℕ) :=
  if (axes.map Prod.fst).all (fun tag => axisTags.contains tag) then
    let coord := compileCoord axes axisTags
    let st₁ :=
      match sharedCoordIndices.lookup coord with
      | some idx => (idx, ([] : List (List ℕ)))
      | none => (EMBEDDED_PEAK_TUPLE, [coord])
    let st₂ :=
      match compileIntermediateCoord axes axisTags with
      | some intermediateCoord => (st₁.1 ||| INTERMEDIATE_REGION, st₁.2 ++ [intermediateCoord])
      | none => st₁
    match (match sharedPoints with
           | some sp =>
             match compileDeltas coordinates sp with
             | some d => some (st₂.1, d)
             | none => none
           | none =>
             match compilePoints (getUsedPoints coordinates) coordinates.length,
                 compileDeltas coordinates (getUsedPoints coordinates) with
             | some pb, some db => some (st₂.1 ||| PRIVATE_POINT_NUMBERS, pb ++ db)
             | _, _ => none) with
    | none => none
    | some (flags, auxData) =>
      match packUInt16 auxData.length, packUInt16 flags with
      | some lenBytes, some flagBytes =>
        some (lenBytes ++ flagBytes ++ st₂.2.flatten, auxData)
      | _, _ => none
  else none

/-- `getTupleSize_` (lines 434-441). -/
def getTupleSize_ (flags : ℕ) (axisCount : ℕ) : ℕ :=
  let size := 4
  let size := if flags &&& EMBEDDED_PEAK_TUPLE ≠ 0 then size + axisCount * 2 else size
  let size := if flags &&& INTERMEDIATE_REGION ≠ 0 then size + axisCount * 4 else size
  size

/-- The per-point deltas written by `compilePoints` for a sorted point
list: each point minus its predecessor (`lastValue` starts at 0). -/
def deltaSeq : ℕ → List ℕ → List ℕ
  | _, [] => []
  | lastValue, p :: rest => (p - lastValue) :: deltaSeq p rest

/-! ## Concrete scenarios from the specification -/

example : compileDeltaValues_ [1, 2, 3] = some [0x02, 0x01, 0x02, 0x03] := by decide
example : compileDeltaValues_ [0, 0, 0, 0, 5, 5] = some [0x83, 0x01, 0x05, 0x05] := by decide
example : compileDeltaValues_ [0x6666, 0x7777] = some [0x41, 0x66, 0x66, 0x77, 0x77] := by decide
example : compileDeltaValues_ [15, 15, 0, 15, 15] =
    some [0x04, 0x0F, 0x0F, 0x00, 0x0F, 0x0F] := by decide
example : compileDeltaValues_ [15, 15, 0, 0, 15, 15] =
    some [0x01, 0x0F, 0x0F, 0x81, 0x01, 0x0F, 0x0F] := by decide
example : decompileDeltas_ 6 [0x01, 0x0F, 0x0F, 0x81, 0x01, 0x0F, 0x0F] 0 =
    some ([15, 15, 0, 0, 15, 15], 7) := by decide
example : decompileDeltas_ 2 [0x41, 0x66, 0x66, 0x77, 0x77] 0 =
    some ([0x6666, 0x7777], 5) := by decide

/-- `Finset.sort` does not reduce in the kernel (`mergeSort` uses
well-founded recursion), so concrete sorts are discharged through the
uniqueness of sorted permutations. -/
theorem sort_eq_of_coe (s : Finset ℕ) (l : List ℕ)
    (hcoe : (l : Multiset ℕ) = s.1) (hs : List.Sorted (· ≤ ·) l) :
    s.sort (· ≤ ·) = l := by
  refine List.eq_of_perm_of_sorted ?_ (Finset.sort_sorted _ _) hs
  refine Multiset.coe_eq_coe.mp ?_
  rw [hcoe]
  exact Multiset.sort_eq _ _

set_option maxRecDepth 8000 in
example : compilePoints {17, 18, 19, 20, 21, 22, 23} 100 =
    some [0x07, 0x06, 0x11, 0x01, 0x01, 0x01, 0x01, 0x01, 0x01] := by
  have h : Finset.sort (· ≤ ·) ({17, 18, 19, 20, 21, 22, 23} : Finset ℕ) =
      [17, 18, 19, 20, 21, 22, 23] := sort_eq_of_coe _ _ (by decide) (by decide)
  unfold compilePoints
  simp only [h]
  decide
example : decompilePoints_ 100 [0x07, 0x06, 0x11, 0x01, 0x01, 0x01, 0x01, 0x01, 0x01] 0 "gvar" =
    some ([17, 18, 19, 20, 21, 22, 23], 9) := by decide
set_option maxRecDepth 8000 in
example : compilePoints {0, 300} 400 = some [0x02, 0x00, 0x00, 0x80, 0x01, 0x2C] := by
  have h : Finset.sort (· ≤ ·) ({0, 300} : Finset ℕ) = [0, 300] :=
    sort_eq_of_coe _ _ (by decide) (by decide)
  unfold compilePoints
  simp only [h]
  decide
example : decompilePoints_ 400 [0x02, 0x00, 0x00, 0x80, 0x01, 0x2C] 0 "gvar" =
    some ([0, 300], 6) := by decide
set_option maxRecDepth 8000 in
example : compilePoints ({65536} : Finset ℕ) 65537 = none := by
  have h : Finset.sort (· ≤ ·) ({65536} : Finset ℕ) = [65536] :=
    sort_eq_of_coe _ _ (by decide) (by decide)
  unfold compilePoints
  simp only [h]
  decide

/-! ## Helper lemmas: bounded bitwise facts -/

theorem land63_small : ∀ m < 64, m &&& 63 = m := by decide
theorem land63_zeroHdr : ∀ m < 64, (128 + m) &&& 63 = m := by decide
theorem land63_wordHdr : ∀ m < 64, (64 + m) &&& 63 = m := by decide
theorem land128_small : ∀ m < 64, m &&& 128 = 0 := by decide
theorem land128_zeroHdr : ∀ m < 64, (128 + m) &&& 128 ≠ 0 := by decide
theorem land128_wordHdr : ∀ m < 64, (64 + m) &&& 128 = 0 := by decide
theorem land64_small : ∀ m < 64, m &&& 64 = 0 := by decide
theorem land64_wordHdr : ∀ m < 64, (64 + m) &&& 64 ≠ 0 := by decide
theorem lor128_zeroHdr : ∀ m < 64, 128 ||| m = 128 + m := by decide
theorem lor64_wordHdr : ∀ m < 64, 64 ||| m = 64 + m := by decide
theorem land127_small : ∀ m < 128, m &&& 127 = m := by decide
theorem land127_hdr : ∀ m < 128, (m + 128) &&& 127 = m := by decide
theorem lor128_points : ∀ m < 128, m ||| 128 = m + 128 := by decide
theorem land128p_small : ∀ m < 128, m &&& 128 = 0 := by decide
theorem land128p_hdr : ∀ m < 128, (m + 128) &&& 128 ≠ 0 := by decide

/-! ## Helper lemmas: signed byte/word round-trips -/

theorem int8_roundtrip (v : ℤ) (h1 : -128 ≤ v) (h2 : v ≤ 127) :
    int8OfByte (v % 256).toNat = v := by
  unfold int8OfByte
  rcases le_or_lt 0 v with h | h
  · have hm : v % 256 = v := by omega
    rw [hm]
    have : v.toNat < 128 := by omega
    simp [this]
    omega
  · have hm : v % 256 = v + 256 := by omega
    rw [hm]
    have : ¬ (v + 256).toNat < 128 := by omega
    simp [this]
    omega

theorem int16_roundtrip (v : ℤ) (h1 : -32768 ≤ v) (h2 : v ≤ 32767) :
    int16OfBytes ((v % 65536) / 256).toNat ((v % 65536) % 256).toNat = v := by
  unfold int16OfBytes
  have hnn : 0 ≤ v % 65536 := by omega
  have hlt : v % 65536 < 65536 := by omega
  have hdm : v % 65536 / 256 * 256 + v % 65536 % 256 = v % 65536 := Int.ediv_add_emod' _ _
  have hdnn : 0 ≤ v % 65536 / 256 := by positivity
  have hmnn : 0 ≤ v % 65536 % 256 := by omega
  have hu : ((v % 65536 / 256).toNat * 256 + (v % 65536 % 256).toNat : ℤ) = v % 65536 := by
    omega
  rcases le_or_lt 0 v with h | h
  · have hm : v % 65536 = v := by omega
    have hcond : (v % 65536 / 256).toNat * 256 + (v % 65536 % 256).toNat < 32768 := by omega
    simp only [hcond, if_true]
    omega
  · have hm : v % 65536 = v + 65536 := by omega
    have hcond : ¬ ((v % 65536 / 256).toNat * 256 + (v % 65536 % 256).toNat < 32768) := by omega
    simp only [hcond, if_false]
    omega

/-! ## Helper lemmas: reading a prefix of the remaining data -/

theorem drop_step (data : List ℕ) (pos : ℕ) (x : ℕ) (rest : List ℕ)
    (h : data.drop pos = x :: rest) :
    data[pos]? = some x ∧ data.drop (pos + 1) = rest ∧ pos + 1 ≤ data.length := by
  have hlen := List.length_drop pos data
  rw [h] at hlen
  have hle : pos + 1 ≤ data.length := by
    by_contra hc
    have : data.drop pos = [] := List.drop_eq_nil_of_le (by omega)
    rw [this] at h
    exact List.noConfusion h
  refine ⟨?_, ?_, hle⟩
  · have := List.getElem?_drop data pos 0
    rw [h] at this
    simpa using this.symm
  · have := List.drop_drop 1 pos data
    rw [h] at this
    simpa [Nat.add_comm] using this.symm

theorem drop_slice (data : List ℕ) (pos : ℕ) (payload rest : List ℕ)
    (hpos : pos ≤ data.length) (h : data.drop pos = payload ++ rest) :
    readSlice data pos payload.length = some payload ∧
      data.drop (pos + payload.length) = rest ∧
      pos + payload.length ≤ data.length := by
  have hlen := List.length_drop pos data
  rw [h] at hlen
  simp only [List.length_append] at hlen
  have hle : pos + payload.length ≤ data.length := by omega
  refine ⟨?_, ?_, hle⟩
  · unfold readSlice
    rw [if_pos hle, h, List.take_left]
  · have := List.drop_drop payload.length pos data
    rw [h, List.drop_left] at this
    rw [← this]

/-! ## Helper lemmas: `mapM` of the packers and payload decoding -/

theorem mapM_packInt8 (c : List ℤ) (h : ∀ v ∈ c, -128 ≤ v ∧ v ≤ 127) :
    mapOption packInt8 c = some (c.map fun v => (v % 256).toNat) := by
  induction c with
  | nil => rfl
  | cons v rest ih =>
    have hv := h v (by simp)
    have hrest := ih fun w hw => h w (List.mem_cons_of_mem _ hw)
    rw [mapOption, hrest]
    simp [packInt8, hv.1, hv.2]

theorem mapM_packInt16 (c : List ℤ) (h : ∀ v ∈ c, -32768 ≤ v ∧ v ≤ 32767) :
    mapOption packInt16 c =
      some (c.map fun v => [((v % 65536) / 256).toNat, ((v % 65536) % 256).toNat]) := by
  induction c with
  | nil => rfl
  | cons v rest ih =>
    have hv := h v (by simp)
    have hrest := ih fun w hw => h w (List.mem_cons_of_mem _ hw)
    rw [mapOption, hrest]
    simp [packInt16, hv.1, hv.2]

theorem signedBytes_decode (c : List ℤ) (h : ∀ v ∈ c, -128 ≤ v ∧ v ≤ 127) :
    signedBytes (c.map fun v => (v % 256).toNat) = c := by
  unfold signedBytes
  rw [List.map_map]
  conv_rhs => rw [← List.map_id c]
  refine List.map_congr_left fun v hv => ?_
  exact int8_roundtrip v (h v hv).1 (h v hv).2

theorem signedWords_decode (c : List ℤ) (h : ∀ v ∈ c, -32768 ≤ v ∧ v ≤ 32767) :
    signedWords
      ((c.map fun v => [((v % 65536) / 256).toNat, ((v % 65536) % 256).toNat]).flatten) = c := by
  induction c with
  | nil => rfl
  | cons v rest ih =>
    have hv := h v (by simp)
    have hrest := ih fun w hw => h w (List.mem_cons_of_mem _ hw)
    simp only [List.map_cons, List.flatten_cons, List.cons_append, List.nil_append]
    rw [signedWords, hrest, int16_roundtrip v hv.1 hv.2]

theorem flatten_pairs_length {α : Type} (c : List α) (f : α → ℕ) (g : α → ℕ) :
    ((c.map fun v => [f v, g v]).flatten).length = 2 * c.length := by
  induction c with
  | nil => rfl
  | cons v rest ih => simp [ih]; omega

/-! ## Helper lemmas: the three delta-run loops -/

theorem zeroRunGo_spec (l : List ℤ) : ∀ rl : ℕ, rl ≤ 64 →
    ∃ k, zeroRunGo l rl = (rl + k, l.drop k) ∧ rl + k ≤ 64 ∧
      l.take k = List.replicate k 0 := by
  induction l with
  | nil => intro rl hrl; exact ⟨0, rfl, by omega, rfl⟩
  | cons v rest ih =>
    intro rl hrl
    by_cases hc : rl < 64 ∧ v = 0
    · obtain ⟨k', heq, hle, htake⟩ := ih (rl + 1) (by omega)
      refine ⟨k' + 1, ?_, by omega, ?_⟩
      · rw [zeroRunGo, if_pos hc, heq, List.drop_succ_cons]
        congr 1
        omega
      · rw [List.take_succ_cons, htake, hc.2]
        rfl
    · exact ⟨0, by rw [zeroRunGo, if_neg hc]; simp, by omega, rfl⟩

theorem byteRunGo_spec (l : List ℤ) : ∀ rl : ℕ, rl ≤ 64 →
    ∃ c rem, byteRunGo l rl = (c, rem) ∧ l = c ++ rem ∧ rl + c.length ≤ 64 ∧
      ∀ v ∈ c, -128 ≤ v ∧ v ≤ 127 := by
  induction l with
  | nil => intro rl hrl; exact ⟨[], [], rfl, rfl, by simpa, by simp⟩
  | cons v rest ih =>
    intro rl hrl
    by_cases h1 : rl < 64
    · by_cases h2 : v < -128 ∨ 127 < v
      · exact ⟨[], v :: rest, by rw [byteRunGo, if_pos h1, if_pos h2], rfl, by simpa, by simp⟩
      · by_cases h3 : v = 0 ∧ rest.head? = some 0
        · refine ⟨[], v :: rest, ?_, rfl, by simpa, by simp⟩
          rw [byteRunGo, if_pos h1, if_neg h2, if_pos h3]
        · obtain ⟨c', rem, heq, happ, hlen, hrange⟩ := ih (rl + 1) (by omega)
          refine ⟨v :: c', rem, ?_, by simp [happ], by simp; omega, ?_⟩
          · rw [byteRunGo, if_pos h1, if_neg h2, if_neg h3, heq]
          · intro w hw
            rcases List.mem_cons.mp hw with hw | hw
            · subst hw; omega
            · exact hrange w hw
    · exact ⟨[], v :: rest, by rw [byteRunGo, if_neg h1], rfl, by simpa, by simp⟩

theorem wordRunGo_spec (l : List ℤ) : ∀ rl : ℕ, rl ≤ 64 →
    ∃ c rem, wordRunGo l rl = (c, rem) ∧ l = c ++ rem ∧ rl + c.length ≤ 64 := by
  induction l with
  | nil => intro rl hrl; exact ⟨[], [], rfl, rfl, by simpa⟩
  | cons v rest ih =>
    intro rl hrl
    by_cases h1 : rl < 64
    · by_cases h2 : v = 0
      · exact ⟨[], v :: rest, by rw [wordRunGo, if_pos h1, if_pos h2], rfl, by simpa⟩
      · by_cases h3 : (isByteEncodable v &&
            (match rest.head? with
             | some w => isByteEncodable w
             | none => false)) = true
        · refine ⟨[], v :: rest, ?_, rfl, by simpa⟩
          rw [wordRunGo, if_pos h1, if_neg h2, if_pos h3]
        · obtain ⟨c', rem, heq, happ, hlen⟩ := ih (rl + 1) (by omega)
          refine ⟨v :: c', rem, ?_, by simp [happ], by simp; omega⟩
          rw [wordRunGo, if_pos h1, if_neg h2, if_neg h3, heq]
    · exact ⟨[], v :: rest, by rw [wordRunGo, if_neg h1], rfl, by simpa⟩

/-! ## Helper lemmas: the three delta-run encoders -/

theorem encodeZeroRun_spec (rest : List ℤ) :
    ∃ k rem, encodeDeltaRunAsZeroes_ (0 :: rest) = some ([128 + (k - 1)], rem) ∧
      (0 :: rest : List ℤ) = List.replicate k 0 ++ rem ∧ 1 ≤ k ∧ k ≤ 64 := by
  obtain ⟨k', heq, hle, htake⟩ := zeroRunGo_spec rest 1 (by omega)
  have hgo : zeroRunGo (0 :: rest) 0 = (1 + k', rest.drop k') := by
    rw [zeroRunGo, if_pos ⟨by omega, rfl⟩, heq]
  refine ⟨k' + 1, rest.drop k', ?_, ?_, by omega, by omega⟩
  · unfold encodeDeltaRunAsZeroes_
    rw [hgo]
    have hguard : 1 ≤ 1 + k' ∧ 1 + k' ≤ 64 := by omega
    simp only [hguard, and_self, if_true, DELTAS_ARE_ZERO]
    have : (128 ||| (1 + k' - 1)) = 128 + (1 + k' - 1) := lor128_zeroHdr _ (by omega)
    rw [this]
    have harith : 1 + k' - 1 = k' + 1 - 1 := by omega
    rw [harith]
  · have : rest = List.take k' rest ++ List.drop k' rest := (List.take_append_drop k' rest).symm
    rw [List.replicate_succ, List.cons_append]
    nth_rewrite 1 [this]
    rw [htake]

theorem encodeByteRun_spec (v : ℤ) (rest : List ℤ) (hv1 : -128 ≤ v) (hv2 : v ≤ 127)
    (hnz : v ≠ 0) :
    ∃ c rem, encodeDeltaRunAsBytes_ (v :: rest) =
        some ((c.length - 1) :: c.map (fun w => (w % 256).toNat), rem) ∧
      (v :: rest : List ℤ) = c ++ rem ∧ 1 ≤ c.length ∧ c.length ≤ 64 ∧
      ∀ w ∈ c, -128 ≤ w ∧ w ≤ 127 := by
  obtain ⟨c', rem, heq, happ, hlen, hrange⟩ := byteRunGo_spec rest 1 (by omega)
  have hgo : byteRunGo (v :: rest) 0 = (v :: c', rem) := by
    rw [byteRunGo, if_pos (by omega), if_neg (by omega), if_neg (by simp [hnz]), heq]
  have hrangec : ∀ w ∈ v :: c', -128 ≤ w ∧ w ≤ 127 := by
    intro w hw
    rcases List.mem_cons.mp hw with hw | hw
    · subst hw; exact ⟨hv1, hv2⟩
    · exact hrange w hw
  refine ⟨v :: c', rem, ?_, by simp [happ], by simp, by simp; omega, hrangec⟩
  unfold encodeDeltaRunAsBytes_
  rw [hgo]
  have hguard : 1 ≤ (v :: c').length ∧ (v :: c').length ≤ 64 := by simp; omega
  simp only [hguard, and_self, if_true]
  rw [mapM_packInt8 _ hrangec]

theorem encodeWordRun_spec (v : ℤ) (rest : List ℤ) (hv : v < -128 ∨ 127 < v)
    (hr : ∀ w ∈ (v :: rest : List ℤ), -32768 ≤ w ∧ w ≤ 32767) :
    ∃ c rem, encodeDeltaRunAsWords_ (v :: rest) =
        some ((64 + (c.length - 1)) ::
          (c.map fun w => [((w % 65536) / 256).toNat, ((w % 65536) % 256).toNat]).flatten,
          rem) ∧
      (v :: rest : List ℤ) = c ++ rem ∧ 1 ≤ c.length ∧ c.length ≤ 64 ∧
      ∀ w ∈ c, -32768 ≤ w ∧ w ≤ 32767 := by
  obtain ⟨c', rem, heq, happ, hlen⟩ := wordRunGo_spec rest 1 (by omega)
  have hnz : v ≠ 0 := by omega
  have hnb : isByteEncodable v = false := by
    unfold isByteEncodable
    rcases hv with h | h
    · simp [show ¬ (-128 ≤ v) by omega]
    · simp [show ¬ (v ≤ 127) by omega]
  have hgo : wordRunGo (v :: rest) 0 = (v :: c', rem) := by
    rw [wordRunGo, if_pos (by omega), if_neg hnz, if_neg (by simp [hnb]), heq]
  have hrangec : ∀ w ∈ v :: c', -32768 ≤ w ∧ w ≤ 32767 := by
    intro w hw
    apply hr
    rcases List.mem_cons.mp hw with h | h
    · rw [h]; exact List.mem_cons_self _ _
    · refine List.mem_cons_of_mem _ ?_
      rw [happ]
      exact List.mem_append_left _ h
  refine ⟨v :: c', rem, ?_, by simp [happ], by simp, by simp; omega, hrangec⟩
  unfold encodeDeltaRunAsWords_
  rw [hgo]
  have hguard : 1 ≤ (v :: c').length ∧ (v :: c').length ≤ 64 := by simp; omega
  simp only [hguard, and_self, if_true]
  rw [mapM_packInt16 _ hrangec]
  simp only [DELTAS_ARE_WORDS]
  rw [lor64_wordHdr _ (by simp; omega)]

/-! ## Helper lemmas: one decoding step of `decompileDeltasGo` -/

theorem decompileDeltasGo_zeroStep (data : List ℕ) (n fuel pos h : ℕ)
    (hget : data[pos]? = some h) (hz : h &&& DELTAS_ARE_ZERO ≠ 0)
    (hcnt : (h &&& DELTA_RUN_COUNT_MASK) + 1 ≤ n + 1) :
    decompileDeltasGo data (n + 1) (fuel + 1) pos =
      (decompileDeltasGo data (n + 1 - ((h &&& DELTA_RUN_COUNT_MASK) + 1)) fuel
          (pos + 1)).map
        (fun rp => (List.replicate ((h &&& DELTA_RUN_COUNT_MASK) + 1) (0 : ℤ) ++ rp.1,
          rp.2)) := by
  rw [decompileDeltasGo, hget]
  simp only [if_pos hz, if_pos hcnt]
  cases hrec : decompileDeltasGo data (n + 1 - ((h &&& DELTA_RUN_COUNT_MASK) + 1)) fuel
      (pos + 1) with
  | none => rfl
  | some rp => cases rp; rfl

theorem decompileDeltasGo_byteStep (data : List ℕ) (n fuel pos h : ℕ) (slice : List ℕ)
    (hget : data[pos]? = some h) (hz : h &&& DELTAS_ARE_ZERO = 0)
    (hw : h &&& DELTAS_ARE_WORDS = 0)
    (hcnt : (h &&& DELTA_RUN_COUNT_MASK) + 1 ≤ n + 1)
    (hslice : readSlice data (pos + 1) ((h &&& DELTA_RUN_COUNT_MASK) + 1) = some slice) :
    decompileDeltasGo data (n + 1) (fuel + 1) pos =
      (decompileDeltasGo data (n + 1 - ((h &&& DELTA_RUN_COUNT_MASK) + 1)) fuel
          (pos + 1 + ((h &&& DELTA_RUN_COUNT_MASK) + 1))).map
        (fun rp => (signedBytes slice ++ rp.1, rp.2)) := by
  have hz' := not_ne_iff.mpr hz
  have hw' := not_ne_iff.mpr hw
  rw [decompileDeltasGo, hget]
  simp only [if_neg hz', if_neg hw', if_pos hcnt, hslice]
  cases hrec : decompileDeltasGo data (n + 1 - ((h &&& DELTA_RUN_COUNT_MASK) + 1)) fuel
      (pos + 1 + ((h &&& DELTA_RUN_COUNT_MASK) + 1)) with
  | none => rfl
  | some rp => cases rp; rfl

theorem decompileDeltasGo_wordStep (data : List ℕ) (n fuel pos h : ℕ) (slice : List ℕ)
    (hget : data[pos]? = some h) (hz : h &&& DELTAS_ARE_ZERO = 0)
    (hw : h &&& DELTAS_ARE_WORDS ≠ 0)
    (hcnt : (h &&& DELTA_RUN_COUNT_MASK) + 1 ≤ n + 1)
    (hslice : readSlice data (pos + 1) (((h &&& DELTA_RUN_COUNT_MASK) + 1) * 2) = some slice) :
    decompileDeltasGo data (n + 1) (fuel + 1) pos =
      (decompileDeltasGo data (n + 1 - ((h &&& DELTA_RUN_COUNT_MASK) + 1)) fuel
          (pos + 1 + ((h &&& DELTA_RUN_COUNT_MASK) + 1) * 2)).map
        (fun rp => (signedWords slice ++ rp.1, rp.2)) := by
  have hz' := not_ne_iff.mpr hz
  rw [decompileDeltasGo, hget]
  simp only [if_neg hz', if_pos hw, if_pos hcnt, hslice]
  cases hrec : decompileDeltasGo data (n + 1 - ((h &&& DELTA_RUN_COUNT_MASK) + 1)) fuel
      (pos + 1 + ((h &&& DELTA_RUN_COUNT_MASK) + 1) * 2) with
  | none => rfl
  | some rp => cases rp; rfl

/-! ## Delta round-trip -/

theorem deltasGo_roundtrip : ∀ (fuel : ℕ) (D : List ℤ), D.length ≤ fuel →
    (∀ v ∈ D, -32768 ≤ v ∧ v ≤ 32767) →
    ∃ bs, compileDeltaValuesGo fuel D = some bs ∧
      ∀ (data : List ℕ) (pos : ℕ) (tail : List ℕ), data.drop pos = bs ++ tail →
        ∀ dfuel, D.length ≤ dfuel →
          decompileDeltasGo data D.length dfuel pos = some (D, pos + bs.length) := by
  intro fuel
  induction fuel with
  | zero =>
    intro D hlen _
    have hD : D = [] := List.length_eq_zero.mp (by omega)
    subst hD
    refine ⟨[], rfl, ?_⟩
    intro data pos tail _ dfuel _
    simp [decompileDeltasGo]
  | succ fuel ih =>
    intro D hlen hr
    match D with
    | [] =>
      refine ⟨[], rfl, ?_⟩
      intro data pos tail _ dfuel _
      simp [decompileDeltasGo]
    | v :: rest =>
      simp only [List.length_cons] at hlen
      by_cases hv0 : v = 0
      · -- zero run
        subst hv0
        obtain ⟨k, rem, hrun, hD, hk1, hk64⟩ := encodeZeroRun_spec rest
        have hlenD : rest.length + 1 = k + rem.length := by
          have := congrArg List.length hD
          simpa using this
        have hremr : ∀ w ∈ rem, -32768 ≤ w ∧ w ≤ 32767 := by
          intro w hw
          exact hr w (hD ▸ List.mem_append_right _ hw)
        obtain ⟨bs', henc', hdec'⟩ := ih rem (by omega) hremr
        refine ⟨[128 + (k - 1)] ++ bs', ?_, ?_⟩
        · rw [compileDeltaValuesGo, if_pos rfl, hrun]
          simp only [henc']
        · intro data pos tail hdrop dfuel hdf
          simp only [List.cons_append, List.nil_append] at hdrop
          obtain ⟨hget, hdrop1, _⟩ := drop_step data pos _ _ hdrop
          simp only [List.length_cons] at hdf ⊢
          obtain ⟨df, rfl⟩ : ∃ df, dfuel = df + 1 := ⟨dfuel - 1, by omega⟩
          have hh63 : (128 + (k - 1)) &&& DELTA_RUN_COUNT_MASK = k - 1 :=
            land63_zeroHdr _ (by omega)
          have hhz : (128 + (k - 1)) &&& DELTAS_ARE_ZERO ≠ 0 :=
            land128_zeroHdr _ (by omega)
          rw [decompileDeltasGo_zeroStep data rest.length df pos _ hget hhz
            (by rw [hh63]; omega)]
          rw [hh63]
          have hneed : rest.length + 1 - ((k - 1) + 1) = rem.length := by omega
          rw [hneed, hdec' data (pos + 1) tail hdrop1 df (by omega)]
          have hkk : (k - 1) + 1 = k := by omega
          rw [Option.map_some', hkk, ← hD]
          simp only [Option.some.injEq, Prod.mk.injEq, List.length_append,
            List.length_cons, List.length_nil]
          exact ⟨trivial, by omega⟩
      · by_cases hvb : -128 ≤ v ∧ v ≤ 127
        · -- byte run
          obtain ⟨c, rem, hrun, hD, hc1, hc64, hcr⟩ :=
            encodeByteRun_spec v rest hvb.1 hvb.2 hv0
          have hlenD : rest.length + 1 = c.length + rem.length := by
            have := congrArg List.length hD
            simpa using this
          have hremr : ∀ w ∈ rem, -32768 ≤ w ∧ w ≤ 32767 := by
            intro w hw
            exact hr w (hD ▸ List.mem_append_right _ hw)
          obtain ⟨bs', henc', hdec'⟩ := ih rem (by omega) hremr
          set payload := c.map (fun w => (w % 256).toNat) with hpay
          have hplen : payload.length = c.length := by simp [hpay]
          refine ⟨((c.length - 1) :: payload) ++ bs', ?_, ?_⟩
          · rw [compileDeltaValuesGo, if_neg hv0, if_pos hvb, hrun]
            simp only [henc']
          · intro data pos tail hdrop dfuel hdf
            simp only [List.cons_append, List.append_assoc] at hdrop
            obtain ⟨hget, hdrop1, hpos1⟩ := drop_step data pos _ _ hdrop
            obtain ⟨hslice, hdrop2, _⟩ :=
              drop_slice data (pos + 1) payload (bs' ++ tail) (by omega) hdrop1
            simp only [List.length_cons] at hdf ⊢
            obtain ⟨df, rfl⟩ : ∃ df, dfuel = df + 1 := ⟨dfuel - 1, by omega⟩
            have hh63 : (c.length - 1) &&& DELTA_RUN_COUNT_MASK = c.length - 1 :=
              land63_small _ (by omega)
            have hhz : (c.length - 1) &&& DELTAS_ARE_ZERO = 0 :=
              land128_small _ (by omega)
            have hhw : (c.length - 1) &&& DELTAS_ARE_WORDS = 0 :=
              land64_small _ (by omega)
            have hsz : (c.length - 1) + 1 = payload.length := by omega
            rw [decompileDeltasGo_byteStep data rest.length df pos _ payload hget hhz hhw
              (by rw [hh63]; omega) (by rw [hh63, hsz]; exact hslice)]
            rw [hh63]
            have hneed : rest.length + 1 - ((c.length - 1) + 1) = rem.length := by omega
            rw [hneed, hsz, hdec' data (pos + 1 + payload.length) tail hdrop2 df (by omega)]
            rw [Option.map_some', signedBytes_decode c hcr, ← hD]
            simp only [Option.some.injEq, Prod.mk.injEq, List.length_append,
              List.length_cons]
            exact ⟨trivial, by omega⟩
        · -- word run
          obtain ⟨c, rem, hrun, hD, hc1, hc64, hcr⟩ :=
            encodeWordRun_spec v rest (by omega) hr
          have hlenD : rest.length + 1 = c.length + rem.length := by
            have := congrArg List.length hD
            simpa using this
          have hremr : ∀ w ∈ rem, -32768 ≤ w ∧ w ≤ 32767 := by
            intro w hw
            exact hr w (hD ▸ List.mem_append_right _ hw)
          obtain ⟨bs', henc', hdec'⟩ := ih rem (by omega) hremr
          set payload :=
            (c.map fun w => [((w % 65536) / 256).toNat, ((w % 65536) % 256).toNat]).flatten
            with hpay
          have hplen : payload.length = 2 * c.length := by
            rw [hpay]; exact flatten_pairs_length c _ _
          refine ⟨((64 + (c.length - 1)) :: payload) ++ bs', ?_, ?_⟩
          · rw [compileDeltaValuesGo, if_neg hv0, if_neg hvb, hrun]
            simp only [henc']
          · intro data pos tail hdrop dfuel hdf
            simp only [List.cons_append, List.append_assoc] at hdrop
            obtain ⟨hget, hdrop1, hpos1⟩ := drop_step data pos _ _ hdrop
            obtain ⟨hslice, hdrop2, _⟩ :=
              drop_slice data (pos + 1) payload (bs' ++ tail) (by omega) hdrop1
            simp only [List.length_cons] at hdf ⊢
            obtain ⟨df, rfl⟩ : ∃ df, dfuel = df + 1 := ⟨dfuel - 1, by omega⟩
            have hh63 : (64 + (c.length - 1)) &&& DELTA_RUN_COUNT_MASK = c.length - 1 :=
              land63_wordHdr _ (by omega)
            have hhz : (64 + (c.length - 1)) &&& DELTAS_ARE_ZERO = 0 :=
              land128_wordHdr _ (by omega)
            have hhw : (64 + (c.length - 1)) &&& DELTAS_ARE_WORDS ≠ 0 :=
              land64_wordHdr _ (by omega)
            have hsz : ((c.length - 1) + 1) * 2 = payload.length := by omega
            rw [decompileDeltasGo_wordStep data rest.length df pos _ payload hget hhz hhw
              (by rw [hh63]; omega) (by rw [hh63, hsz]; exact hslice)]
            rw [hh63]
            have hneed : rest.length + 1 - ((c.length - 1) + 1) = rem.length := by omega
            rw [hneed, hsz, hdec' data (pos + 1 + payload.length) tail hdrop2 df (by omega)]
            rw [Option.map_some', hpay, signedWords_decode c hcr, ← hD]
            simp only [Option.some.injEq, Prod.mk.injEq, List.length_append,
              List.length_cons]
            exact ⟨trivial, by omega⟩

/-! ## Claim C2 -/

/-- Claim C2: for every sequence `D` of signed integers each in
`[-32768, 32767]`, `decompileDeltas_(len(D), compileDeltaValues_(D), 0)`
returns exactly `(D, L)` where `L` is the length of the compiled bytes:
decoding recovers the original values and consumes exactly the produced
bytes. -/
theorem deltaRoundtrip (D : List ℤ) (hr : ∀ v ∈ D, -32768 ≤ v ∧ v ≤ 32767) :
    ∃ bs, compileDeltaValues_ D = some bs ∧
      decompileDeltas_ D.length bs 0 = some (D, bs.length) := by
  obtain ⟨bs, henc, hdec⟩ := deltasGo_roundtrip D.length D le_rfl hr
  refine ⟨bs, henc, ?_⟩
  have := hdec bs 0 [] (by simp) D.length le_rfl
  simpa [decompileDeltas_] using this

/-- Witness for C2 at the concrete sequence `[1, 0, 0, 300, -5]`. -/
theorem deltaRoundtrip_witness :
    (∀ v ∈ ([1, 0, 0, 300, -5] : List ℤ), -32768 ≤ v ∧ v ≤ 32767) ∧
      ∃ bs, compileDeltaValues_ [1, 0, 0, 300, -5] = some bs ∧
        decompileDeltas_ 5 bs 0 = some ([1, 0, 0, 300, -5], bs.length) :=
  ⟨by decide, deltaRoundtrip [1, 0, 0, 300, -5] (by decide)⟩

/-! ## Claim C5 -/

/-- Counterexample to claim C5 as stated: the empty sequence is all-zero
of length `k = 0 ≤ 64`, but its encoding is empty, not one byte. -/
theorem zeroRunBound_counterexample :
    compileDeltaValues_ ([] : List ℤ) = some [] ∧
      ¬ ∃ b : ℕ, compileDeltaValues_ ([] : List ℤ) = some [b] := by
  constructor
  · rfl
  · rintro ⟨b, hb⟩
    simp [compileDeltaValues_, compileDeltaValuesGo] at hb

theorem zeroRunGo_replicate : ∀ (k rl : ℕ), rl + k ≤ 64 →
    zeroRunGo (List.replicate k (0 : ℤ)) rl = (rl + k, []) := by
  intro k
  induction k with
  | zero => intro rl _; simp [zeroRunGo]
  | succ k ih =>
    intro rl hrl
    rw [List.replicate_succ, zeroRunGo, if_pos ⟨by omega, rfl⟩, ih (rl + 1) (by omega)]
    congr 1
    omega

/-- Claim C5 (amended: `1 ≤ k`): an all-zero delta sequence of length
`k` with `1 ≤ k ≤ 64` compiles to the single byte `0x80 | (k - 1)`. -/
theorem zeroRunBound (k : ℕ) (h1 : 1 ≤ k) (h64 : k ≤ 64) :
    compileDeltaValues_ (List.replicate k (0 : ℤ)) = some [0x80 ||| (k - 1)] := by
  have hgo : zeroRunGo (List.replicate k (0 : ℤ)) 0 = (k, []) := by
    have := zeroRunGo_replicate k 0 (by omega)
    simpa using this
  have hrun : encodeDeltaRunAsZeroes_ (List.replicate k (0 : ℤ)) =
      some ([0x80 ||| (k - 1)], []) := by
    unfold encodeDeltaRunAsZeroes_
    rw [hgo]
    dsimp only
    rw [if_pos ⟨h1, h64⟩]
    rfl
  obtain ⟨rest, hk⟩ : ∃ rest, List.replicate k (0 : ℤ) = 0 :: rest :=
    ⟨List.replicate (k - 1) 0, by
      rw [← List.replicate_succ]
      congr 1
      omega⟩
  unfold compileDeltaValues_
  rw [hk, show ((0 : ℤ) :: rest).length = rest.length + 1 from by simp]
  rw [compileDeltaValuesGo, if_pos rfl, ← hk, hrun]
  simp [compileDeltaValuesGo]

/-- Witness for the amended C5 at `k = 3`. -/
theorem zeroRunBound_witness :
    1 ≤ 3 ∧ 3 ≤ 64 ∧
      compileDeltaValues_ (List.replicate 3 (0 : ℤ)) = some [0x80 ||| 2] :=
  ⟨by decide, by decide, zeroRunBound 3 (by decide) (by decide)⟩

/-! ## Claim C6 -/

/-- Claim C6: inside `encodeDeltaRunAsBytes_`, a byte run (whose values
fit a signed byte) is cut short exactly when the current value is zero
and the next value is zero as well, so a single interior zero stays in
the run; concretely `[15, 15, 0, 15, 15]` compiles to
`04 0F 0F 00 0F 0F` and `[15, 15, 0, 0, 15, 15]` compiles to
`01 0F 0F 81 01 0F 0F`. -/
theorem byteRunZeroHeuristic :
    (∀ (v : ℤ) (rest : List ℤ) (runLength : ℕ), runLength < 64 →
      -128 ≤ v → v ≤ 127 →
      ((byteRunGo (v :: rest) runLength).1 = [] ↔ v = 0 ∧ rest.head? = some 0)) ∧
    compileDeltaValues_ [15, 15, 0, 15, 15] =
      some [0x04, 0x0F, 0x0F, 0x00, 0x0F, 0x0F] ∧
    compileDeltaValues_ [15, 15, 0, 0, 15, 15] =
      some [0x01, 0x0F, 0x0F, 0x81, 0x01, 0x0F, 0x0F] := by
  refine ⟨?_, by decide, by decide⟩
  intro v rest runLength h64 hlo hhi
  constructor
  · intro hnil
    by_contra hc
    rw [byteRunGo, if_pos h64, if_neg (by omega), if_neg hc] at hnil
    simp at hnil
  · intro hc
    rw [byteRunGo, if_pos h64, if_neg (by omega), if_pos hc]

/-- Witness for C6: the general clause applied at a cut (current value
`0`, next value `0`) and at a continuation (next value `15`). -/
theorem byteRunZeroHeuristic_witness :
    ((0 : ℕ) < 64 ∧ (-128 : ℤ) ≤ 0 ∧ (0 : ℤ) ≤ 127) ∧
      (byteRunGo [(0 : ℤ), 0] 0).1 = [] ∧ (byteRunGo [(0 : ℤ), 15] 0).1 ≠ [] := by
  refine ⟨⟨by decide, by decide, by decide⟩, ?_, ?_⟩
  · exact (byteRunZeroHeuristic.1 0 [0] 0 (by decide) (by decide) (by decide)).mpr
      (by decide)
  · intro hc
    have := (byteRunZeroHeuristic.1 0 [15] 0 (by decide) (by decide) (by decide)).mp hc
    simp at this

/-! ## Claim C7 -/

/-- Claim C7: when a run header has bit `0x80` (`DELTAS_ARE_ZERO`) set —
whether or not bit `0x40` (`DELTAS_ARE_WORDS`) is also set — the delta
decoder appends `(header & 0x3F) + 1` zero values and consumes only the
header byte, no payload. -/
theorem zeroFlagPrecedence (data : List ℕ) (n fuel pos h : ℕ)
    (hget : data[pos]? = some h) (hz : h &&& DELTAS_ARE_ZERO ≠ 0)
    (hcnt : (h &&& DELTA_RUN_COUNT_MASK) + 1 ≤ n + 1) :
    decompileDeltasGo data (n + 1) (fuel + 1) pos =
      (decompileDeltasGo data (n + 1 - ((h &&& DELTA_RUN_COUNT_MASK) + 1)) fuel
          (pos + 1)).map
        (fun rp => (List.replicate ((h &&& DELTA_RUN_COUNT_MASK) + 1) (0 : ℤ) ++ rp.1,
          rp.2)) :=
  decompileDeltasGo_zeroStep data n fuel pos h hget hz hcnt

/-- Witness for C7: header `0xC0` has both `0x80` and `0x40` set; the
decoder still produces one zero and moves past only the header byte. -/
theorem zeroFlagPrecedence_witness :
    (([0xC0] : List ℕ)[0]? = some 0xC0 ∧ 0xC0 &&& DELTAS_ARE_ZERO ≠ 0 ∧
      (0xC0 &&& DELTA_RUN_COUNT_MASK) + 1 ≤ 0 + 1) ∧
      decompileDeltas_ 1 [0xC0] 0 = some ([0], 1) := by
  refine ⟨⟨by decide, by decide, by decide⟩, ?_⟩
  have := zeroFlagPrecedence [0xC0] 0 0 0 0xC0 (by decide) (by decide) (by decide)
  unfold decompileDeltas_
  rw [show (1 : ℕ) = 0 + 1 from rfl, this]
  decide

/-! ## Claim C9 -/

/-- Claim C9: `getTupleSize_(flags, axisCount)` is 4, plus
`2 · axisCount` when `EMBEDDED_PEAK_TUPLE` (`0x8000`) is set, plus
`4 · axisCount` when `INTERMEDIATE_REGION` (`0x4000`) is set. -/
theorem tupleSizeLaw (flags axisCount : ℕ) :
    getTupleSize_ flags axisCount =
      4 + (if flags &&& 0x8000 ≠ 0 then 2 * axisCount else 0) +
        (if flags &&& 0x4000 ≠ 0 then 4 * axisCount else 0) := by
  unfold getTupleSize_ EMBEDDED_PEAK_TUPLE INTERMEDIATE_REGION
  by_cases h1 : flags &&& 0x8000 ≠ 0 <;> by_cases h2 : flags &&& 0x4000 ≠ 0 <;>
    simp [h1, h2] <;> ring

/-! ## Point-codec helper lemmas shared by C3, C8 and C10 -/

theorem compilePoints_full (N : ℕ) : compilePoints (Finset.range N) N = some [0] := by
  unfold compilePoints
  rw [if_pos (Finset.card_range N)]

theorem compilePoints_empty (N : ℕ) : compilePoints (∅ : Finset ℕ) N = some [0] := by
  unfold compilePoints
  by_cases h : (∅ : Finset ℕ).card = N
  · rw [if_pos h]
  · rw [if_neg h, Finset.sort_empty]
    rfl

theorem decompilePoints_zeroByte (N : ℕ) :
    decompilePoints_ N [0] 0 "gvar" = some (List.range N, 1) := by
  unfold decompilePoints_
  rw [if_pos (Or.inr rfl)]
  have hpc : parsePointCount [0] 0 = some (0, 1) := by decide
  rw [hpc]
  dsimp only
  rw [if_pos rfl]

/-! ## Claim C3 -/

/-- Claim C3: the full point set `{0, ..., N-1}` with `N` points in the
glyph compiles to the single byte `0x00`, and decoding that byte with
`numPoints = N` yields `0, 1, ..., N-1` with new offset `offset + 1`. -/
theorem allPointsShortcut :
    (∀ N : ℕ, compilePoints (Finset.range N) N = some [0x00]) ∧
      ∀ N : ℕ, decompilePoints_ N [0x00] 0 "gvar" = some (List.range N, 0 + 1) :=
  ⟨compilePoints_full, decompilePoints_zeroByte⟩

/-! ## Claim C10 -/

/-- Claim C10: the empty set also compiles to the single byte `0x00` —
identical to the all-points encoding — so decoding the encoder's output
yields all `N` points `0, ..., N-1`, and the point round-trip fails for
the empty set (at `N = 1` the decoder returns `[0]`, not `[]`). -/
theorem emptySetAllPoints :
    (∀ N : ℕ, compilePoints (∅ : Finset ℕ) N = some [0x00]) ∧
      (∀ N : ℕ, decompilePoints_ N [0x00] 0 "gvar" = some (List.range N, 1)) ∧
      ∃ bs, compilePoints (∅ : Finset ℕ) 1 = some bs ∧
        decompilePoints_ 1 bs 0 "gvar" ≠
          some (Finset.sort (· ≤ ·) (∅ : Finset ℕ), bs.length) := by
  refine ⟨compilePoints_empty, decompilePoints_zeroByte, [0], compilePoints_empty 1, ?_⟩
  rw [decompilePoints_zeroByte 1, Finset.sort_empty]
  simp

/-! ## Claim C8 -/

/-- Claim C8: whenever the packed data does not use the "all points"
form (decoded count nonzero), the result of `decompilePoints_` is
entirely independent of `numPoints`: out-of-range absolute points are
returned unchanged at their decoded positions and never raise (the
source only logs a warning).  Concretely, `[0x01, 0x00, 0x05]` with
`numPoints = 2` decodes to the out-of-range point list `[5]`. -/
theorem outOfRangePointsRecovered :
    (∀ (data : List ℕ) (off K pos₁ N M : ℕ),
      parsePointCount data off = some (K, pos₁) → K ≠ 0 →
      decompilePoints_ N data off "gvar" = decompilePoints_ M data off "gvar") ∧
    decompilePoints_ 2 [0x01, 0x00, 0x05] 0 "gvar" = some ([5], 3) := by
  constructor
  · intro data off K pos₁ N M hpc hK
    unfold decompilePoints_
    rw [hpc]
    dsimp only
    rw [if_neg hK, if_neg hK]
  · decide

/-- Witness for C8: the count of `[0x01, 0x00, 0x05]` parses to `1 ≠ 0`,
and decoding is the same with `numPoints = 2` and `numPoints = 99`. -/
theorem outOfRangePointsRecovered_witness :
    (parsePointCount [0x01, 0x00, 0x05] 0 = some (1, 1) ∧ (1 : ℕ) ≠ 0) ∧
      decompilePoints_ 2 [0x01, 0x00, 0x05] 0 "gvar" =
        decompilePoints_ 99 [0x01, 0x00, 0x05] 0 "gvar" :=
  ⟨⟨by decide, by decide⟩,
    outOfRangePointsRecovered.1 [0x01, 0x00, 0x05] 0 1 1 2 99 (by decide) (by decide)⟩

/-! ## Helper lemmas for the point codec -/

theorem deltaSeq_length (pts : List ℕ) : ∀ lv, (deltaSeq lv pts).length = pts.length := by
  induction pts with
  | nil => intro lv; rfl
  | cons p rest ih => intro lv; simp [deltaSeq, ih]

theorem absolutize_deltaSeq (pts : List ℕ) : ∀ lv, (∀ p ∈ pts, lv ≤ p) →
    List.Sorted (· < ·) pts → absolutize lv (deltaSeq lv pts) = pts := by
  induction pts with
  | nil => intro lv _ _; rfl
  | cons p rest ih =>
    intro lv hlv hs
    have hp : lv ≤ p := hlv p (by simp)
    rw [deltaSeq, absolutize, Nat.add_sub_cancel' hp]
    congr 1
    refine ih p (fun q hq => le_of_lt ?_) hs.of_cons
    exact (List.sorted_cons.mp hs).1 q hq

theorem unsignedWords_decode (ds : List ℕ) :
    unsignedWords ((ds.map fun d => [d / 256, d % 256]).flatten) = ds := by
  induction ds with
  | nil => rfl
  | cons d rest ih =>
    simp only [List.map_cons, List.flatten_cons, List.cons_append, List.nil_append]
    rw [unsignedWords, ih]
    congr 1
    omega

theorem word_compose (a b : ℕ) (ha : a < 128) (hb : b < 256) :
    ((a + 128) &&& 127) <<< 8 ||| b = a * 256 + b := by
  rw [land127_hdr a ha, Nat.shiftLeft_eq]
  have hb' : b < 2 ^ 8 := hb
  calc a * 2 ^ 8 ||| b = 2 ^ 8 * a ||| b := by rw [Nat.mul_comm]
    _ = 2 ^ 8 * a + b := (Nat.mul_add_lt_is_or hb' a).symm
    _ = a * 256 + b := by ring

/-! ## Helper lemmas: one decoding step of `decodePointRunsGo` -/

theorem decodePointRunsGo_byteStep (data : List ℕ) (n fuel pos h : ℕ) (slice : List ℕ)
    (hget : data[pos]? = some h) (hw : h &&& POINTS_ARE_WORDS = 0)
    (hslice : readSlice data (pos + 1) ((h &&& POINT_RUN_COUNT_MASK) + 1) = some slice) :
    decodePointRunsGo data (n + 1) (fuel + 1) pos =
      (decodePointRunsGo data (n + 1 - ((h &&& POINT_RUN_COUNT_MASK) + 1)) fuel
          (pos + 1 + ((h &&& POINT_RUN_COUNT_MASK) + 1))).map
        (fun rp => (slice ++ rp.1, rp.2)) := by
  have hw' := not_ne_iff.mpr hw
  rw [decodePointRunsGo, hget]
  simp only [if_neg hw', hslice]
  cases hrec : decodePointRunsGo data (n + 1 - ((h &&& POINT_RUN_COUNT_MASK) + 1)) fuel
      (pos + 1 + ((h &&& POINT_RUN_COUNT_MASK) + 1)) with
  | none => rfl
  | some rp => cases rp; rfl

theorem decodePointRunsGo_wordStep (data : List ℕ) (n fuel pos h : ℕ) (slice : List ℕ)
    (hget : data[pos]? = some h) (hw : h &&& POINTS_ARE_WORDS ≠ 0)
    (hslice : readSlice data (pos + 1) (((h &&& POINT_RUN_COUNT_MASK) + 1) * 2) =
      some slice) :
    decodePointRunsGo data (n + 1) (fuel + 1) pos =
      (decodePointRunsGo data (n + 1 - ((h &&& POINT_RUN_COUNT_MASK) + 1)) fuel
          (pos + 1 + ((h &&& POINT_RUN_COUNT_MASK) + 1) * 2)).map
        (fun rp => (unsignedWords slice ++ rp.1, rp.2)) := by
  rw [decodePointRunsGo, hget]
  simp only [if_pos hw, hslice]
  cases hrec : decodePointRunsGo data (n + 1 - ((h &&& POINT_RUN_COUNT_MASK) + 1)) fuel
      (pos + 1 + ((h &&& POINT_RUN_COUNT_MASK) + 1) * 2) with
  | none => rfl
  | some rp => cases rp; rfl

theorem bytechr_natCast (n : ℕ) (h : n < 256) : bytechr ((n : ℕ) : ℤ) = some n := by
  unfold bytechr
  rw [if_pos ⟨by omega, by omega⟩]
  simp

theorem fdiv256_natCast (n : ℕ) : ((n : ℕ) : ℤ).fdiv 256 = ((n / 256 : ℕ) : ℤ) := by
  rw [Int.fdiv_eq_ediv _ (by omega)]
  omega

theorem emod256_natCast (n : ℕ) : ((n : ℕ) : ℤ) % 256 = ((n % 256 : ℕ) : ℤ) := by
  omega

theorem pointRunGo_byteMode (pts : List ℕ) : ∀ (lv rl : ℕ), rl ≤ 128 →
    List.Sorted (· < ·) pts → (∀ p ∈ pts, lv ≤ p) →
    ∃ c rem lv', pts = c ++ rem ∧
      pointRunGo pts lv rl (some true) =
        some (deltaSeq lv c, rl + c.length, some true, rem, lv') ∧
      rl + c.length ≤ 128 ∧ (∀ d ∈ deltaSeq lv c, d ≤ 255) ∧
      deltaSeq lv pts = deltaSeq lv c ++ deltaSeq lv' rem ∧
      List.Sorted (· < ·) rem ∧ (∀ p ∈ rem, lv' ≤ p) := by
  induction pts with
  | nil =>
    intro lv rl hrl _ _
    exact ⟨[], [], lv, rfl, rfl, by simpa, by simp [deltaSeq], by simp [deltaSeq],
      by simp, by simp⟩
  | cons cur rest ih =>
    intro lv rl hrl hs hlv
    have hcur : lv ≤ cur := hlv cur (by simp)
    by_cases hrl127 : rl ≤ 127
    · by_cases hbig : 255 < cur - lv
      · refine ⟨[], cur :: rest, lv, rfl, ?_, by simpa, by simp [deltaSeq],
          by simp [deltaSeq], hs, hlv⟩
        rw [pointRunGo, if_pos hrl127]
        dsimp only
        rw [if_pos ⟨rfl, Or.inl (by omega)⟩]
        rfl
      · have hnotbreak : ¬ ((some true : Option Bool) = some true ∧
            (255 < (cur : ℤ) - (lv : ℤ) ∨ (cur : ℤ) - (lv : ℤ) < 0)) := by
          rintro ⟨-, h | h⟩ <;> omega
        have hrest : ∀ p ∈ rest, cur ≤ p := fun p hp =>
          le_of_lt ((List.sorted_cons.mp hs).1 p hp)
        obtain ⟨c', rem, lv', happ, hgo, hle, hbound, hsplit, hsrem, hlvrem⟩ :=
          ih cur (rl + 1) (by omega) hs.of_cons hrest
        refine ⟨cur :: c', rem, lv', by simp [happ], ?_, by simp; omega, ?_, ?_,
          hsrem, hlvrem⟩
        · rw [pointRunGo, if_pos hrl127]
          dsimp only
          rw [if_neg hnotbreak, if_pos rfl]
          have hd : (cur : ℤ) - (lv : ℤ) = ((cur - lv : ℕ) : ℤ) := by omega
          rw [hd, bytechr_natCast _ (by omega)]
          dsimp only
          rw [hgo]
          dsimp only
          rw [show deltaSeq lv (cur :: c') = (cur - lv) :: deltaSeq cur c' from rfl,
            show (cur :: c').length = c'.length + 1 from rfl,
            show rl + (c'.length + 1) = rl + 1 + c'.length from by omega]
          rfl
        · intro d hd
          rw [show deltaSeq lv (cur :: c') = (cur - lv) :: deltaSeq cur c' from rfl] at hd
          rcases List.mem_cons.mp hd with hd | hd
          · omega
          · exact hbound d hd
        · rw [show deltaSeq lv (cur :: rest) = (cur - lv) :: deltaSeq cur rest from rfl,
            show deltaSeq lv (cur :: c') = (cur - lv) :: deltaSeq cur c' from rfl,
            hsplit, List.cons_append]
    · refine ⟨[], cur :: rest, lv, rfl, ?_, by simpa, by simp [deltaSeq],
        by simp [deltaSeq], hs, hlv⟩
      rw [pointRunGo, if_neg hrl127]
      rfl

theorem pointRunGo_wordMode (pts : List ℕ) : ∀ (lv rl : ℕ), rl ≤ 128 →
    List.Sorted (· < ·) pts → (∀ p ∈ pts, lv ≤ p) → (∀ p ∈ pts, p < 65536) →
    ∃ c rem lv', pts = c ++ rem ∧
      pointRunGo pts lv rl (some false) =
        some (((deltaSeq lv c).map fun d => [d / 256, d % 256]).flatten,
          rl + c.length, some false, rem, lv') ∧
      rl + c.length ≤ 128 ∧
      deltaSeq lv pts = deltaSeq lv c ++ deltaSeq lv' rem ∧
      List.Sorted (· < ·) rem ∧ (∀ p ∈ rem, lv' ≤ p) ∧ (∀ p ∈ rem, p < 65536) := by
  induction pts with
  | nil =>
    intro lv rl hrl _ _ _
    exact ⟨[], [], lv, rfl, rfl, by simpa, by simp [deltaSeq], by simp, by simp, by simp⟩
  | cons cur rest ih =>
    intro lv rl hrl hs hlv hbnd
    have hcur : lv ≤ cur := hlv cur (by simp)
    have hcur16 : cur < 65536 := hbnd cur (by simp)
    by_cases hrl127 : rl ≤ 127
    · have hnotbreak : ¬ ((some false : Option Bool) = some true ∧
          (255 < (cur : ℤ) - (lv : ℤ) ∨ (cur : ℤ) - (lv : ℤ) < 0)) := by
        rintro ⟨h, -⟩
        exact Option.noConfusion h (fun h => Bool.noConfusion h)
      have hrest : ∀ p ∈ rest, cur ≤ p := fun p hp =>
        le_of_lt ((List.sorted_cons.mp hs).1 p hp)
      obtain ⟨c', rem, lv', happ, hgo, hle, hsplit, hsrem, hlvrem, hbrem⟩ :=
        ih cur (rl + 1) (by omega) hs.of_cons hrest
          (fun p hp => hbnd p (List.mem_cons_of_mem _ hp))
      refine ⟨cur :: c', rem, lv', by simp [happ], ?_, by simp; omega, ?_,
        hsrem, hlvrem, hbrem⟩
      · rw [pointRunGo, if_pos hrl127]
        dsimp only
        rw [if_neg hnotbreak, if_neg (by simp)]
        have hd : (cur : ℤ) - (lv : ℤ) = ((cur - lv : ℕ) : ℤ) := by omega
        rw [hd, fdiv256_natCast, emod256_natCast,
          bytechr_natCast _ (by omega), bytechr_natCast _ (by omega)]
        dsimp only
        rw [hgo]
        dsimp only
        rw [show deltaSeq lv (cur :: c') = (cur - lv) :: deltaSeq cur c' from rfl,
          show (cur :: c').length = c'.length + 1 from rfl,
          show rl + (c'.length + 1) = rl + 1 + c'.length from by omega]
        rfl
      · rw [show deltaSeq lv (cur :: rest) = (cur - lv) :: deltaSeq cur rest from rfl,
          show deltaSeq lv (cur :: c') = (cur - lv) :: deltaSeq cur c' from rfl,
          hsplit, List.cons_append]
    · refine ⟨[], cur :: rest, lv, rfl, ?_, by simpa, by simp [deltaSeq],
        hs, hlv, hbnd⟩
      rw [pointRunGo, if_neg hrl127]
      rfl

theorem pointRunGo_start (cur : ℕ) (rest : List ℕ) (lv : ℕ)
    (hs : List.Sorted (· < ·) (cur :: rest)) (hlv : ∀ p ∈ cur :: rest, lv ≤ p)
    (hb : ∀ p ∈ cur :: rest, p < 65536) :
    ∃ (c rem : List ℕ) (lv' : ℕ) (payload : List ℕ) (mode : Bool),
      (cur :: rest : List ℕ) = c ++ rem ∧ 1 ≤ c.length ∧ c.length ≤ 128 ∧
      pointRunGo (cur :: rest) lv 0 none =
        some (payload, c.length, some mode, rem, lv') ∧
      deltaSeq lv (cur :: rest) = deltaSeq lv c ++ deltaSeq lv' rem ∧
      List.Sorted (· < ·) rem ∧ (∀ p ∈ rem, lv' ≤ p) ∧ (∀ p ∈ rem, p < 65536) ∧
      ((mode = true ∧ payload = deltaSeq lv c ∧ payload.length = c.length) ∨
        (mode = false ∧
          payload = ((deltaSeq lv c).map fun d => [d / 256, d % 256]).flatten ∧
          payload.length = 2 * c.length)) := by
  have hcur : lv ≤ cur := hlv cur (by simp)
  have hcur16 : cur < 65536 := hb cur (by simp)
  have hrest : ∀ p ∈ rest, cur ≤ p := fun p hp =>
    le_of_lt ((List.sorted_cons.mp hs).1 p hp)
  have hbrest : ∀ p ∈ rest, p < 65536 := fun p hp => hb p (List.mem_cons_of_mem _ hp)
  have hd : (cur : ℤ) - (lv : ℤ) = ((cur - lv : ℕ) : ℤ) := by omega
  by_cases hbyte : cur - lv ≤ 255
  · -- the first delta fits a byte: useByteEncoding becomes true
    have hdec : decide (0 ≤ (cur : ℤ) - (lv : ℤ) ∧ (cur : ℤ) - (lv : ℤ) ≤ 0xff) = true := by
      rw [decide_eq_true_eq]
      constructor <;> omega
    obtain ⟨c', rem, lv', happ, hgo, hle, hbound, hsplit, hsrem, hlvrem⟩ :=
      pointRunGo_byteMode rest cur 1 (by omega) hs.of_cons hrest
    refine ⟨cur :: c', rem, lv', deltaSeq lv (cur :: c'), true, by simp [happ],
      by simp, by simp; omega, ?_, ?_, hsrem, hlvrem,
      fun p hp => hbrest p (happ ▸ List.mem_append_right _ hp),
      Or.inl ⟨rfl, rfl, (deltaSeq_length _ _)⟩⟩
    · rw [pointRunGo, if_pos (by omega)]
      dsimp only
      rw [hdec]
      rw [if_neg (by rintro ⟨-, h | h⟩ <;> omega), if_pos rfl]
      rw [hd, bytechr_natCast _ (by omega)]
      dsimp only
      rw [hgo]
      dsimp only
      rw [show deltaSeq lv (cur :: c') = (cur - lv) :: deltaSeq cur c' from rfl,
        show (cur :: c').length = c'.length + 1 from rfl,
        show c'.length + 1 = 1 + c'.length from by omega]
      rfl
    · rw [show deltaSeq lv (cur :: rest) = (cur - lv) :: deltaSeq cur rest from rfl,
        show deltaSeq lv (cur :: c') = (cur - lv) :: deltaSeq cur c' from rfl,
        hsplit, List.cons_append]
  · -- the first delta needs a word: useByteEncoding becomes false
    have hdec : decide (0 ≤ (cur : ℤ) - (lv : ℤ) ∧ (cur : ℤ) - (lv : ℤ) ≤ 0xff) = false := by
      rw [decide_eq_false_iff_not]
      rintro ⟨-, h⟩
      omega
    obtain ⟨c', rem, lv', happ, hgo, hle, hsplit, hsrem, hlvrem, hbrem⟩ :=
      pointRunGo_wordMode rest cur 1 (by omega) hs.of_cons hrest hbrest
    refine ⟨cur :: c', rem, lv',
      ((deltaSeq lv (cur :: c')).map fun d => [d / 256, d % 256]).flatten, false,
      by simp [happ], by simp, by simp; omega, ?_, ?_, hsrem, hlvrem, hbrem,
      Or.inr ⟨rfl, rfl, by rw [flatten_pairs_length, deltaSeq_length]⟩⟩
    · rw [pointRunGo, if_pos (by omega)]
      dsimp only
      rw [hdec]
      rw [if_neg (by rintro ⟨h, -⟩; exact Option.noConfusion h (fun h => Bool.noConfusion h)),
        if_neg (by simp)]
      rw [hd, fdiv256_natCast, emod256_natCast,
        bytechr_natCast _ (by omega), bytechr_natCast _ (by omega)]
      dsimp only
      rw [hgo]
      dsimp only
      rw [show deltaSeq lv (cur :: c') = (cur - lv) :: deltaSeq cur c' from rfl,
        show (cur :: c').length = c'.length + 1 from rfl,
        show c'.length + 1 = 1 + c'.length from by omega]
      rfl
    · rw [show deltaSeq lv (cur :: rest) = (cur - lv) :: deltaSeq cur rest from rfl,
        show deltaSeq lv (cur :: c') = (cur - lv) :: deltaSeq cur c' from rfl,
        hsplit, List.cons_append]

theorem pointRunsGo_roundtrip : ∀ (fuel : ℕ) (pts : List ℕ) (lv : ℕ),
    pts.length ≤ fuel → List.Sorted (· < ·) pts → (∀ p ∈ pts, lv ≤ p) →
    (∀ p ∈ pts, p < 65536) →
    ∃ bs, compilePointsRunsGo fuel pts lv = some bs ∧
      ∀ (data : List ℕ) (pos : ℕ) (tail : List ℕ), data.drop pos = bs ++ tail →
        ∀ dfuel, pts.length ≤ dfuel →
          decodePointRunsGo data pts.length dfuel pos =
            some (deltaSeq lv pts, pos + bs.length) := by
  intro fuel
  induction fuel with
  | zero =>
    intro pts lv hlen _ _ _
    have hpts : pts = [] := List.length_eq_zero.mp (by omega)
    subst hpts
    refine ⟨[], rfl, ?_⟩
    intro data pos tail _ dfuel _
    simp [decodePointRunsGo, deltaSeq]
  | succ fuel ih =>
    intro pts lv hlen hs hlv hb
    match pts with
    | [] =>
      refine ⟨[], rfl, ?_⟩
      intro data pos tail _ dfuel _
      simp [decodePointRunsGo, deltaSeq]
    | cur :: rest =>
      simp only [List.length_cons] at hlen
      obtain ⟨c, rem, lv', payload, mode, happ, hc1, hc128, hgo, hsplit, hsrem,
        hlvrem, hbrem, hmode⟩ := pointRunGo_start cur rest lv hs hlv hb
      have hlenD : rest.length + 1 = c.length + rem.length := by
        have := congrArg List.length happ
        simpa using this
      obtain ⟨bs', henc', hdec'⟩ := ih rem lv' (by omega) hsrem hlvrem hbrem
      rcases hmode with ⟨hmt, hpayload, hplen⟩ | ⟨hmf, hpayload, hplen⟩
      · -- byte-encoded run
        subst hmt
        refine ⟨(c.length - 1) :: payload ++ bs', ?_, ?_⟩
        · rw [compilePointsRunsGo, hgo]
          dsimp only
          rw [if_pos rfl,
            show ((c.length : ℕ) : ℤ) - 1 = ((c.length - 1 : ℕ) : ℤ) from by omega,
            bytechr_natCast _ (by omega)]
          dsimp only
          rw [henc']
        · intro data pos tail hdrop dfuel hdf
          simp only [List.cons_append, List.append_assoc] at hdrop
          obtain ⟨hget, hdrop1, hpos1⟩ := drop_step data pos _ _ hdrop
          obtain ⟨hslice, hdrop2, _⟩ :=
            drop_slice data (pos + 1) payload (bs' ++ tail) (by omega) hdrop1
          simp only [List.length_cons] at hdf ⊢
          obtain ⟨df, rfl⟩ : ∃ df, dfuel = df + 1 := ⟨dfuel - 1, by omega⟩
          have hh127 : (c.length - 1) &&& POINT_RUN_COUNT_MASK = c.length - 1 :=
            land127_small _ (by omega)
          have hh128 : (c.length - 1) &&& POINTS_ARE_WORDS = 0 :=
            land128p_small _ (by omega)
          have hsz : (c.length - 1) + 1 = payload.length := by omega
          rw [decodePointRunsGo_byteStep data rest.length df pos _ payload hget hh128
            (by rw [hh127, hsz]; exact hslice)]
          rw [hh127]
          have hneed : rest.length + 1 - ((c.length - 1) + 1) = rem.length := by omega
          rw [hneed, hsz, hdec' data (pos + 1 + payload.length) tail hdrop2 df (by omega)]
          rw [Option.map_some', hpayload, ← hsplit]
          simp only [Option.some.injEq, Prod.mk.injEq, List.length_append,
            List.length_cons]
          exact ⟨trivial, by omega⟩
      · -- word-encoded run
        subst hmf
        refine ⟨((c.length - 1) ||| POINTS_ARE_WORDS) :: payload ++ bs', ?_, ?_⟩
        · rw [compilePointsRunsGo, hgo]
          dsimp only
          rw [if_neg (by simp), if_neg (by omega),
            bytechr_natCast _ (by rw [show POINTS_ARE_WORDS = 128 from rfl,
              lor128_points _ (by omega)]; omega)]
          dsimp only
          rw [henc']
        · intro data pos tail hdrop dfuel hdf
          simp only [List.cons_append, List.append_assoc] at hdrop
          obtain ⟨hget, hdrop1, hpos1⟩ := drop_step data pos _ _ hdrop
          obtain ⟨hslice, hdrop2, _⟩ :=
            drop_slice data (pos + 1) payload (bs' ++ tail) (by omega) hdrop1
          simp only [List.length_cons] at hdf ⊢
          obtain ⟨df, rfl⟩ : ∃ df, dfuel = df + 1 := ⟨dfuel - 1, by omega⟩
          have hlor : (c.length - 1) ||| POINTS_ARE_WORDS = (c.length - 1) + 128 := by
            rw [show POINTS_ARE_WORDS = 128 from rfl, lor128_points _ (by omega)]
          have hh127 : ((c.length - 1) + 128) &&& POINT_RUN_COUNT_MASK = c.length - 1 :=
            land127_hdr _ (by omega)
          have hh128 : ((c.length - 1) + 128) &&& POINTS_ARE_WORDS ≠ 0 :=
            land128p_hdr _ (by omega)
          have hsz : ((c.length - 1) + 1) * 2 = payload.length := by omega
          rw [hlor] at hget
          rw [hlor, decodePointRunsGo_wordStep data rest.length df pos _ payload hget hh128
            (by rw [hh127, hsz]; exact hslice)]
          rw [hh127]
          have hneed : rest.length + 1 - ((c.length - 1) + 1) = rem.length := by omega
          rw [hneed, hsz, hdec' data (pos + 1 + payload.length) tail hdrop2 df (by omega)]
          rw [Option.map_some', hpayload, unsignedWords_decode, ← hsplit]
          simp only [Option.some.injEq, Prod.mk.injEq, List.length_append,
            List.length_cons]
          exact ⟨trivial, by omega⟩

/-! ## Claim C1 -/

set_option maxRecDepth 8000 in
/-- Counterexample to claim C1 as stated: with `N = 65537` and
`S = {65536}` (a non-empty subset of `[0, N)`), the encoder's first
delta is `65536`, and `bytechr(delta >> 8)` = `bytechr(256)` raises
`ValueError` in Python (`none` here), so no bytes are produced and the
round-trip fails. -/
theorem pointRoundtrip_counterexample :
    compilePoints ({65536} : Finset ℕ) 65537 = none ∧
      ¬ ∃ bs, compilePoints ({65536} : Finset ℕ) 65537 = some bs ∧
        decompilePoints_ 65537 bs 0 "gvar" =
          some (Finset.sort (· ≤ ·) ({65536} : Finset ℕ), bs.length) := by
  have h : compilePoints ({65536} : Finset ℕ) 65537 = none := by
    have hsort : Finset.sort (· ≤ ·) ({65536} : Finset ℕ) = [65536] :=
      sort_eq_of_coe _ _ (by decide) (by decide)
    unfold compilePoints
    simp only [hsort]
    decide
  refine ⟨h, ?_⟩
  rintro ⟨bs, hbs, -⟩
  rw [h] at hbs
  exact Option.noConfusion hbs

/-- Claim C1 (amended): the point-set round-trip
`decompilePoints_(N, compilePoints(S, N), 0) = (sorted S, length)` holds
for every non-empty `S ⊆ [0, N)` provided `N ≤ 65536` (so every encoded
delta fits the 16-bit word form) and either `S` is the full set or
`|S| < 32768` (so the count prefix is invertible; for
`32768 ≤ |S| ≠ N` the 15-bit count prefix silently loses the top bit,
and points `≥ 65536` make the encoder raise). -/
theorem pointRoundtrip (N : ℕ) (S : Finset ℕ) (hne : S.Nonempty)
    (hsub : ∀ p ∈ S, p < N) (hN : N ≤ 65536)
    (hcard : S.card = N ∨ S.card < 32768) :
    ∃ bs, compilePoints S N = some bs ∧
      decompilePoints_ N bs 0 "gvar" = some (S.sort (· ≤ ·), bs.length) := by
  by_cases hfull : S.card = N
  · have hSrange : S = Finset.range N := by
      refine Finset.eq_of_subset_of_card_le ?_ ?_
      · intro p hp
        exact Finset.mem_range.mpr (hsub p hp)
      · rw [Finset.card_range, ← hfull]
    refine ⟨[0], ?_, ?_⟩
    · rw [hSrange]
      exact compilePoints_full N
    · rw [decompilePoints_zeroByte N, hSrange, Finset.sort_range]
      rfl
  · have hcard' : S.card < 32768 := hcard.resolve_left hfull
    set pts := S.sort (· ≤ ·) with hpts
    have hlen : pts.length = S.card := Finset.length_sort _
    have hslt : List.Sorted (· < ·) pts := Finset.sort_sorted_lt S
    have hmem : ∀ p ∈ pts, p ∈ S := fun p hp => (Finset.mem_sort _).mp hp
    have hb : ∀ p ∈ pts, p < 65536 := fun p hp =>
      lt_of_lt_of_le (hsub p (hmem p hp)) hN
    have hlv : ∀ p ∈ pts, 0 ≤ p := fun p _ => Nat.zero_le p
    have hcard1 : 1 ≤ S.card := Finset.card_pos.mpr hne
    obtain ⟨runBytes, henc, hdec⟩ :=
      pointRunsGo_roundtrip pts.length pts 0 le_rfl hslt hlv hb
    have habs : absolutize 0 (deltaSeq 0 pts) = pts := absolutize_deltaSeq pts 0 hlv hslt
    by_cases hsmall : pts.length < 0x80
    · -- one-byte count
      refine ⟨pts.length :: runBytes, ?_, ?_⟩
      · unfold compilePoints
        rw [if_neg hfull, ← hpts]
        dsimp only
        rw [if_pos hsmall, bytechr_natCast _ (by omega)]
        dsimp only
        rw [henc]
        rfl
      · unfold decompilePoints_
        rw [if_pos (Or.inr rfl)]
        have hpc : parsePointCount (pts.length :: runBytes) 0 = some (pts.length, 1) := by
          unfold parsePointCount
          rw [List.getElem?_cons_zero]
          dsimp only
          rw [show POINTS_ARE_WORDS = 128 from rfl]
          rw [if_neg (not_ne_iff.mpr (land128p_small _ hsmall))]
        rw [hpc]
        dsimp only
        rw [if_neg (by omega)]
        rw [hdec (pts.length :: runBytes) 1 [] (by simp) pts.length le_rfl]
        dsimp only
        rw [habs]
        simp only [List.length_cons, Option.some.injEq, Prod.mk.injEq]
        exact ⟨trivial, by omega⟩
    · -- two-byte count
      have hlen32 : pts.length < 32768 := by omega
      have hshr : pts.length >>> 8 = pts.length / 256 := by
        rw [Nat.shiftRight_eq_div_pow]
      have hdiv : pts.length / 256 < 128 := by omega
      have hb0 : (pts.length >>> 8) ||| 0x80 = pts.length / 256 + 128 := by
        rw [hshr]
        exact lor128_points _ hdiv
      have hmod : pts.length &&& 0xff = pts.length % 256 := by
        have := Nat.and_pow_two_sub_one_eq_mod pts.length 8
        norm_num at this
        exact this
      refine ⟨((pts.length >>> 8) ||| 0x80) :: (pts.length &&& 0xff) :: runBytes, ?_, ?_⟩
      · unfold compilePoints
        rw [if_neg hfull, ← hpts]
        dsimp only
        rw [if_neg hsmall, bytechr_natCast _ (by omega), bytechr_natCast _ (by omega)]
        dsimp only
        rw [henc]
        rfl
      · unfold decompilePoints_
        rw [if_pos (Or.inr rfl)]
        have hpc : parsePointCount
            (((pts.length >>> 8) ||| 0x80) :: (pts.length &&& 0xff) :: runBytes) 0 =
            some (pts.length, 2) := by
          unfold parsePointCount
          rw [List.getElem?_cons_zero]
          dsimp only
          rw [show POINTS_ARE_WORDS = 128 from rfl, show POINT_RUN_COUNT_MASK = 127 from rfl]
          rw [if_pos (by rw [hb0]; exact land128p_hdr _ hdiv)]
          rw [List.getElem?_cons_succ, List.getElem?_cons_zero]
          dsimp only
          rw [hb0, hmod, word_compose _ _ hdiv (by omega)]
          rw [show pts.length / 256 * 256 + pts.length % 256 = pts.length from by omega]
        rw [hpc]
        dsimp only
        rw [if_neg (by omega)]
        rw [hdec _ 2 [] (by simp) pts.length le_rfl]
        dsimp only
        rw [habs]
        simp only [List.length_cons, Option.some.injEq, Prod.mk.injEq]
        exact ⟨trivial, by omega⟩

/-- Witness for the amended C1 at `S = {1, 3}`, `N = 5`. -/
theorem pointRoundtrip_witness :
    (({1, 3} : Finset ℕ).Nonempty ∧ (∀ p ∈ ({1, 3} : Finset ℕ), p < 5) ∧
      (5 : ℕ) ≤ 65536 ∧
      (({1, 3} : Finset ℕ).card = 5 ∨ ({1, 3} : Finset ℕ).card < 32768)) ∧
      ∃ bs, compilePoints {1, 3} 5 = some bs ∧
        decompilePoints_ 5 bs 0 "gvar" =
          some (Finset.sort (· ≤ ·) ({1, 3} : Finset ℕ), bs.length) :=
  ⟨⟨by decide, by decide, by decide, by decide⟩,
    pointRoundtrip 5 {1, 3} (by decide) (by decide) (by decide) (by decide)⟩

/-! ## Helper lemmas: flag-word arithmetic for `compile` -/

theorem lor_two_pow_mul_eq_add (m i a : ℕ) (hm : m < 2 ^ i) :
    m ||| 2 ^ i * a = 2 ^ i * a + m := by
  rw [Nat.lor_comm, ← Nat.mul_add_lt_is_or hm a]

theorem and_two_pow_eq_zero (a i : ℕ) (h : a.testBit i = false) : a &&& 2 ^ i = 0 := by
  rw [Nat.and_two_pow, h]
  simp

theorem and_two_pow_ne_zero (a i : ℕ) (h : a.testBit i = true) : a &&& 2 ^ i ≠ 0 := by
  rw [Nat.and_two_pow, h]
  simp

theorem idxFlags_plain (m : ℕ) (hm : m < 4096) :
    m &&& 0x8000 = 0 ∧ m &&& 0xFFF = m ∧ m &&& 0x2000 = 0 := by
  refine ⟨?_, ?_, ?_⟩
  · rw [show (0x8000 : ℕ) = 2 ^ 15 from by norm_num]
    exact and_two_pow_eq_zero _ _ (Nat.testBit_lt_two_pow (lt_of_lt_of_le hm (by norm_num)))
  · rw [show (0xFFF : ℕ) = 2 ^ 12 - 1 from by norm_num,
      Nat.and_pow_two_sub_one_eq_mod]
    exact Nat.mod_eq_of_lt (lt_of_lt_of_le hm (by norm_num))
  · rw [show (0x2000 : ℕ) = 2 ^ 13 from by norm_num]
    exact and_two_pow_eq_zero _ _ (Nat.testBit_lt_two_pow (lt_of_lt_of_le hm (by norm_num)))

theorem idxFlags_interm (m : ℕ) (hm : m < 4096) :
    (m ||| 0x4000) &&& 0x8000 = 0 ∧ (m ||| 0x4000) &&& 0xFFF = m ∧
      (m ||| 0x4000) &&& 0x2000 = 0 := by
  have htm : ∀ i : ℕ, 12 ≤ i → m.testBit i = false := fun i hi =>
    Nat.testBit_lt_two_pow (lt_of_lt_of_le hm (by
      calc (4096 : ℕ) = 2 ^ 12 := by norm_num
        _ ≤ 2 ^ i := Nat.pow_le_pow_right (by norm_num) hi))
  have hadd : m ||| 0x4000 = 0x4000 + m := by
    rw [show (0x4000 : ℕ) = 2 ^ 14 * 1 from by norm_num]
    exact lor_two_pow_mul_eq_add m 14 1 (lt_of_lt_of_le hm (by norm_num))
  refine ⟨?_, ?_, ?_⟩
  · rw [show (0x8000 : ℕ) = 2 ^ 15 from by norm_num]
    refine and_two_pow_eq_zero _ _ ?_
    rw [Nat.testBit_or, htm 15 (by norm_num)]
    decide
  · rw [show (0xFFF : ℕ) = 2 ^ 12 - 1 from by norm_num,
      Nat.and_pow_two_sub_one_eq_mod, hadd]
    omega
  · rw [show (0x2000 : ℕ) = 2 ^ 13 from by norm_num]
    refine and_two_pow_eq_zero _ _ ?_
    rw [Nat.testBit_or, htm 13 (by norm_num)]
    decide

theorem idxFlags_priv (m : ℕ) (hm : m < 4096) :
    (m ||| 0x2000) &&& 0x8000 = 0 ∧ (m ||| 0x2000) &&& 0xFFF = m ∧
      (m ||| 0x2000) &&& 0x2000 ≠ 0 := by
  have htm : ∀ i : ℕ, 12 ≤ i → m.testBit i = false := fun i hi =>
    Nat.testBit_lt_two_pow (lt_of_lt_of_le hm (by
      calc (4096 : ℕ) = 2 ^ 12 := by norm_num
        _ ≤ 2 ^ i := Nat.pow_le_pow_right (by norm_num) hi))
  have hadd : m ||| 0x2000 = 0x2000 + m := by
    rw [show (0x2000 : ℕ) = 2 ^ 13 * 1 from by norm_num]
    exact lor_two_pow_mul_eq_add m 13 1 (lt_of_lt_of_le hm (by norm_num))
  refine ⟨?_, ?_, ?_⟩
  · rw [show (0x8000 : ℕ) = 2 ^ 15 from by norm_num]
    refine and_two_pow_eq_zero _ _ ?_
    rw [Nat.testBit_or, htm 15 (by norm_num)]
    decide
  · rw [show (0xFFF : ℕ) = 2 ^ 12 - 1 from by norm_num,
      Nat.and_pow_two_sub_one_eq_mod, hadd]
    omega
  · rw [show (0x2000 : ℕ) = 2 ^ 13 from by norm_num]
    refine and_two_pow_ne_zero _ _ ?_
    rw [Nat.testBit_or, show ((2 : ℕ) ^ 13).testBit 13 = true from by decide, Bool.or_true]

theorem idxFlags_both (m : ℕ) (hm : m < 4096) :
    ((m ||| 0x4000) ||| 0x2000) &&& 0x8000 = 0 ∧
      ((m ||| 0x4000) ||| 0x2000) &&& 0xFFF = m ∧
      ((m ||| 0x4000) ||| 0x2000) &&& 0x2000 ≠ 0 := by
  have htm : ∀ i : ℕ, 12 ≤ i → m.testBit i = false := fun i hi =>
    Nat.testBit_lt_two_pow (lt_of_lt_of_le hm (by
      calc (4096 : ℕ) = 2 ^ 12 := by norm_num
        _ ≤ 2 ^ i := Nat.pow_le_pow_right (by norm_num) hi))
  have hadd : (m ||| 0x4000) ||| 0x2000 = 0x6000 + m := by
    rw [Nat.lor_assoc, show ((0x4000 : ℕ) ||| 0x2000) = 2 ^ 13 * 3 from by decide]
    rw [lor_two_pow_mul_eq_add m 13 3 (lt_of_lt_of_le hm (by norm_num))]
    norm_num
  refine ⟨?_, ?_, ?_⟩
  · rw [show (0x8000 : ℕ) = 2 ^ 15 from by norm_num]
    refine and_two_pow_eq_zero _ _ ?_
    rw [Nat.testBit_or, Nat.testBit_or, htm 15 (by norm_num)]
    decide
  · rw [show (0xFFF : ℕ) = 2 ^ 12 - 1 from by norm_num,
      Nat.and_pow_two_sub_one_eq_mod, hadd]
    omega
  · rw [show (0x2000 : ℕ) = 2 ^ 13 from by norm_num]
    refine and_two_pow_ne_zero _ _ ?_
    rw [Nat.testBit_or, show ((2 : ℕ) ^ 13).testBit 13 = true from by decide, Bool.or_true]

theorem packUInt16_eq (x : ℕ) (b : List ℕ) (h : packUInt16 x = some b) :
    b = [x / 256, x % 256] := by
  unfold packUInt16 at h
  by_cases hx : x ≤ 65535
  · rw [if_pos hx] at h
    exact (Option.some.inj h).symm
  · rw [if_neg hx] at h
    exact absurd h (by simp)

/-! ## Claim C4 -/

/-- Claim C4: for a `TupleVariation` whose axis tags all occur in
`axisTags`, a successful `compile` sets `flags` to the shared coordinate
index (appending no peak bytes) exactly when the compiled peak is a key
of `sharedCoordIndices`, and otherwise sets `EMBEDDED_PEAK_TUPLE` and
appends the peak bytes; it sets `PRIVATE_POINT_NUMBERS` and prepends the
packed point numbers to `auxData` exactly when `sharedPoints` is `None`;
and the returned header is the big-endian `uint16` pair
`(len(auxData), flags)` followed by the appended coordinate bytes. -/
theorem compileFlagsLayout
    (axes : List (String × (ℚ × ℚ × ℚ))) (coordinates : List (Option (ℤ × ℤ)))
    (axisTags : List String) (sharedCoordIndices : List (List ℕ × ℕ))
    (sharedPoints : Option (Finset ℕ)) (header auxData : List ℕ)
    (hidx : ∀ k idx, sharedCoordIndices.lookup k = some idx → idx < 0x1000)
    (hc : TupleVariation.compile axes coordinates axisTags sharedCoordIndices
      sharedPoints = some (header, auxData)) :
    ∃ flags : ℕ,
      header = [auxData.length / 256, auxData.length % 256, flags / 256, flags % 256] ++
        (match sharedCoordIndices.lookup (compileCoord axes axisTags) with
         | some _ => ([] : List ℕ)
         | none => compileCoord axes axisTags) ++
        ((compileIntermediateCoord axes axisTags).getD []) ∧
      (flags &&& EMBEDDED_PEAK_TUPLE ≠ 0 ↔
        sharedCoordIndices.lookup (compileCoord axes axisTags) = none) ∧
      (∀ idx, sharedCoordIndices.lookup (compileCoord axes axisTags) = some idx →
        flags &&& 0xFFF = idx) ∧
      (flags &&& PRIVATE_POINT_NUMBERS ≠ 0 ↔ sharedPoints = none) ∧
      (sharedPoints = none →
        ∃ pb db, compilePoints (getUsedPoints coordinates) coordinates.length = some pb ∧
          compileDeltas coordinates (getUsedPoints coordinates) = some db ∧
          auxData = pb ++ db) ∧
      ∀ sp, sharedPoints = some sp → compileDeltas coordinates sp = some auxData := by
  unfold TupleVariation.compile at hc
  by_cases hall : ((axes.map Prod.fst).all fun tag => axisTags.contains tag) = true
  case neg =>
    rw [if_neg hall] at hc
    exact absurd hc (by simp)
  case pos =>
  rw [if_pos hall] at hc
  dsimp only at hc
  cases hlook : sharedCoordIndices.lookup (compileCoord axes axisTags) with
  | some idx =>
    rw [hlook] at hc
    have hidx' : idx < 4096 := hidx _ _ hlook
    cases hic : compileIntermediateCoord axes axisTags with
    | none =>
      rw [hic] at hc
      dsimp only at hc
      cases sharedPoints with
      | some sp =>
        dsimp only at hc
        cases hd : compileDeltas coordinates sp with
        | none => rw [hd] at hc; exact absurd hc (by simp)
        | some d =>
          rw [hd] at hc
          dsimp only at hc
          cases hp1 : packUInt16 d.length with
          | none => rw [hp1] at hc; exact absurd hc (by simp)
          | some lenB =>
            cases hp2 : packUInt16 idx with
            | none => rw [hp1, hp2] at hc; exact absurd hc (by simp)
            | some flagB =>
              rw [hp1, hp2] at hc
              dsimp only at hc
              obtain ⟨hh, ha⟩ := Prod.mk.injEq .. ▸ Option.some.inj hc
              subst ha
              refine ⟨idx, ?_, ?_, ?_, ?_, ?_, ?_⟩
              · rw [← hh, packUInt16_eq _ _ hp1, packUInt16_eq _ _ hp2]
                simp
              · exact iff_of_false (by simp [EMBEDDED_PEAK_TUPLE, (idxFlags_plain idx hidx').1]) (by simp)
              · intro idx' h'
                cases Option.some.inj h'
                exact (idxFlags_plain _ hidx').2.1
              · exact iff_of_false (by simp [PRIVATE_POINT_NUMBERS, (idxFlags_plain idx hidx').2.2]) (by simp)
              · intro h'
                exact absurd h' (by simp)
              · intro sp' hsp'
                rw [Option.some.inj hsp'] at hd
                rw [hd]
      | none =>
        dsimp only at hc
        cases hp : compilePoints (getUsedPoints coordinates) coordinates.length with
        | none => rw [hp] at hc; exact absurd hc (by simp)
        | some pb =>
          cases hd : compileDeltas coordinates (getUsedPoints coordinates) with
          | none => rw [hp, hd] at hc; exact absurd hc (by simp)
          | some db =>
            rw [hp, hd] at hc
            dsimp only at hc
            cases hp1 : packUInt16 (pb ++ db).length with
            | none => rw [hp1] at hc; exact absurd hc (by simp)
            | some lenB =>
              cases hp2 : packUInt16 (idx ||| PRIVATE_POINT_NUMBERS) with
              | none => rw [hp1, hp2] at hc; exact absurd hc (by simp)
              | some flagB =>
                rw [hp1, hp2] at hc
                dsimp only at hc
                obtain ⟨hh, ha⟩ := Prod.mk.injEq .. ▸ Option.some.inj hc
                subst ha
                refine ⟨idx ||| 0x2000, ?_, ?_, ?_, ?_, ?_, ?_⟩
                · rw [← hh, packUInt16_eq _ _ hp1, packUInt16_eq _ _ hp2]
                  simp [PRIVATE_POINT_NUMBERS]
                · exact iff_of_false (by simp [EMBEDDED_PEAK_TUPLE, (idxFlags_priv idx hidx').1]) (by simp)
                · intro idx' h'
                  cases Option.some.inj h'
                  exact (idxFlags_priv _ hidx').2.1
                · exact iff_of_true (by simpa [PRIVATE_POINT_NUMBERS] using (idxFlags_priv idx hidx').2.2) rfl
                · intro _
                  exact ⟨pb, db, rfl, rfl, rfl⟩
                · intro sp' hsp'
                  exact absurd hsp' (by simp)
    | some ic =>
      rw [hic] at hc
      dsimp only at hc
      cases sharedPoints with
      | some sp =>
        dsimp only at hc
        cases hd : compileDeltas coordinates sp with
        | none => rw [hd] at hc; exact absurd hc (by simp)
        | some d =>
          rw [hd] at hc
          dsimp only at hc
          cases hp1 : packUInt16 d.length with
          | none => rw [hp1] at hc; exact absurd hc (by simp)
          | some lenB =>
            cases hp2 : packUInt16 (idx ||| INTERMEDIATE_REGION) with
            | none => rw [hp1, hp2] at hc; exact absurd hc (by simp)
            | some flagB =>
              rw [hp1, hp2] at hc
              dsimp only at hc
              obtain ⟨hh, ha⟩ := Prod.mk.injEq .. ▸ Option.some.inj hc
              subst ha
              refine ⟨idx ||| 0x4000, ?_, ?_, ?_, ?_, ?_, ?_⟩
              · rw [← hh, packUInt16_eq _ _ hp1, packUInt16_eq _ _ hp2]
                simp [INTERMEDIATE_REGION]
              · exact iff_of_false (by simp [EMBEDDED_PEAK_TUPLE, (idxFlags_interm idx hidx').1]) (by simp)
              · intro idx' h'
                cases Option.some.inj h'
                exact (idxFlags_interm _ hidx').2.1
              · exact iff_of_false (by simp [PRIVATE_POINT_NUMBERS, (idxFlags_interm idx hidx').2.2]) (by simp)
              · intro h'
                exact absurd h' (by simp)
              · intro sp' hsp'
                rw [Option.some.inj hsp'] at hd
                rw [hd]
      | none =>
        dsimp only at hc
        cases hp : compilePoints (getUsedPoints coordinates) coordinates.length with
        | none => rw [hp] at hc; exact absurd hc (by simp)
        | some pb =>
          cases hd : compileDeltas coordinates (getUsedPoints coordinates) with
          | none => rw [hp, hd] at hc; exact absurd hc (by simp)
          | some db =>
            rw [hp, hd] at hc
            dsimp only at hc
            cases hp1 : packUInt16 (pb ++ db).length with
            | none => rw [hp1] at hc; exact absurd hc (by simp)
            | some lenB =>
              cases hp2 : packUInt16 ((idx ||| INTERMEDIATE_REGION) ||| PRIVATE_POINT_NUMBERS) with
              | none => rw [hp1, hp2] at hc; exact absurd hc (by simp)
              | some flagB =>
                rw [hp1, hp2] at hc
                dsimp only at hc
                obtain ⟨hh, ha⟩ := Prod.mk.injEq .. ▸ Option.some.inj hc
                subst ha
                refine ⟨(idx ||| 0x4000) ||| 0x2000, ?_, ?_, ?_, ?_, ?_, ?_⟩
                · rw [← hh, packUInt16_eq _ _ hp1, packUInt16_eq _ _ hp2]
                  simp [INTERMEDIATE_REGION, PRIVATE_POINT_NUMBERS]
                · exact iff_of_false (by simp [EMBEDDED_PEAK_TUPLE, (idxFlags_both idx hidx').1]) (by simp)
                · intro idx' h'
                  cases Option.some.inj h'
                  exact (idxFlags_both _ hidx').2.1
                · exact iff_of_true (by simpa [PRIVATE_POINT_NUMBERS] using (idxFlags_both idx hidx').2.2) rfl
                · intro _
                  exact ⟨pb, db, rfl, rfl, rfl⟩
                · intro sp' hsp'
                  exact absurd hsp' (by simp)
  | none =>
    rw [hlook] at hc
    cases hic : compileIntermediateCoord axes axisTags with
    | none =>
      rw [hic] at hc
      dsimp only at hc
      cases sharedPoints with
      | some sp =>
        dsimp only at hc
        cases hd : compileDeltas coordinates sp with
        | none => rw [hd] at hc; exact absurd hc (by simp)
        | some d =>
          rw [hd] at hc
          dsimp only at hc
          cases hp1 : packUInt16 d.length with
          | none => rw [hp1] at hc; exact absurd hc (by simp)
          | some lenB =>
            cases hp2 : packUInt16 EMBEDDED_PEAK_TUPLE with
            | none => rw [hp1, hp2] at hc; exact absurd hc (by simp)
            | some flagB =>
              rw [hp1, hp2] at hc
              dsimp only at hc
              obtain ⟨hh, ha⟩ := Prod.mk.injEq .. ▸ Option.some.inj hc
              subst ha
              refine ⟨0x8000, ?_, ?_, ?_, ?_, ?_, ?_⟩
              · rw [← hh, packUInt16_eq _ _ hp1, packUInt16_eq _ _ hp2]
                simp [EMBEDDED_PEAK_TUPLE]
              · exact iff_of_true (by decide) rfl
              · intro idx' h'
                exact absurd h' (by simp)
              · exact iff_of_false (by decide) (by simp)
              · intro h'
                exact absurd h' (by simp)
              · intro sp' hsp'
                rw [Option.some.inj hsp'] at hd
                rw [hd]
      | none =>
        dsimp only at hc
        cases hp : compilePoints (getUsedPoints coordinates) coordinates.length with
        | none => rw [hp] at hc; exact absurd hc (by simp)
        | some pb =>
          cases hd : compileDeltas coordinates (getUsedPoints coordinates) with
          | none => rw [hp, hd] at hc; exact absurd hc (by simp)
          | some db =>
            rw [hp, hd] at hc
            dsimp only at hc
            cases hp1 : packUInt16 (pb ++ db).length with
            | none => rw [hp1] at hc; exact absurd hc (by simp)
            | some lenB =>
              cases hp2 : packUInt16 (EMBEDDED_PEAK_TUPLE ||| PRIVATE_POINT_NUMBERS) with
              | none => rw [hp1, hp2] at hc; exact absurd hc (by simp)
              | some flagB =>
                rw [hp1, hp2] at hc
                dsimp only at hc
                obtain ⟨hh, ha⟩ := Prod.mk.injEq .. ▸ Option.some.inj hc
                subst ha
                refine ⟨0x8000 ||| 0x2000, ?_, ?_, ?_, ?_, ?_, ?_⟩
                · rw [← hh, packUInt16_eq _ _ hp1, packUInt16_eq _ _ hp2]
                  simp [EMBEDDED_PEAK_TUPLE, PRIVATE_POINT_NUMBERS]
                · exact iff_of_true (by decide) rfl
                · intro idx' h'
                  exact absurd h' (by simp)
                · exact iff_of_true (by decide) rfl
                · intro _
                  exact ⟨pb, db, rfl, rfl, rfl⟩
                · intro sp' hsp'
                  exact absurd hsp' (by simp)
    | some ic =>
      rw [hic] at hc
      dsimp only at hc
      cases sharedPoints with
      | some sp =>
        dsimp only at hc
        cases hd : compileDeltas coordinates sp with
        | none => rw [hd] at hc; exact absurd hc (by simp)
        | some d =>
          rw [hd] at hc
          dsimp only at hc
          cases hp1 : packUInt16 d.length with
          | none => rw [hp1] at hc; exact absurd hc (by simp)
          | some lenB =>
            cases hp2 : packUInt16 (EMBEDDED_PEAK_TUPLE ||| INTERMEDIATE_REGION) with
            | none => rw [hp1, hp2] at hc; exact absurd hc (by simp)
            | some flagB =>
              rw [hp1, hp2] at hc
              dsimp only at hc
              obtain ⟨hh, ha⟩ := Prod.mk.injEq .. ▸ Option.some.inj hc
              subst ha
              refine ⟨0x8000 ||| 0x4000, ?_, ?_, ?_, ?_, ?_, ?_⟩
              · rw [← hh, packUInt16_eq _ _ hp1, packUInt16_eq _ _ hp2]
                simp [EMBEDDED_PEAK_TUPLE, INTERMEDIATE_REGION]
              · exact iff_of_true (by decide) rfl
              · intro idx' h'
                exact absurd h' (by simp)
              · exact iff_of_false (by decide) (by simp)
              · intro h'
                exact absurd h' (by simp)
              · intro sp' hsp'
                rw [Option.some.inj hsp'] at hd
                rw [hd]
      | none =>
        dsimp only at hc
        cases hp : compilePoints (getUsedPoints coordinates) coordinates.length with
        | none => rw [hp] at hc; exact absurd hc (by simp)
        | some pb =>
          cases hd : compileDeltas coordinates (getUsedPoints coordinates) with
          | none => rw [hp, hd] at hc; exact absurd hc (by simp)
          | some db =>
            rw [hp, hd] at hc
            dsimp only at hc
            cases hp1 : packUInt16 (pb ++ db).length with
            | none => rw [hp1] at hc; exact absurd hc (by simp)
            | some lenB =>
              cases hp2 : packUInt16 ((EMBEDDED_PEAK_TUPLE ||| INTERMEDIATE_REGION) |||
                  PRIVATE_POINT_NUMBERS) with
              | none => rw [hp1, hp2] at hc; exact absurd hc (by simp)
              | some flagB =>
                rw [hp1, hp2] at hc
                dsimp only at hc
                obtain ⟨hh, ha⟩ := Prod.mk.injEq .. ▸ Option.some.inj hc
                subst ha
                refine ⟨(0x8000 ||| 0x4000) ||| 0x2000, ?_, ?_, ?_, ?_, ?_, ?_⟩
                · rw [← hh, packUInt16_eq _ _ hp1, packUInt16_eq _ _ hp2]
                  simp [EMBEDDED_PEAK_TUPLE, INTERMEDIATE_REGION, PRIVATE_POINT_NUMBERS]
                · exact iff_of_true (by decide) rfl
                · intro idx' h'
                  exact absurd h' (by simp)
                · exact iff_of_true (by decide) rfl
                · intro _
                  exact ⟨pb, db, rfl, rfl, rfl⟩
                · intro sp' hsp'
                  exact absurd hsp' (by simp)

set_option maxRecDepth 8000 in
/-- Witness for C4: one axis `wght` with a peak-only region `(0, 1, 1)`,
three coordinates of which two are set, no shared coordinates and no
shared points.  `compile` embeds the peak (`40 00`), sets
`EMBEDDED_PEAK_TUPLE | PRIVATE_POINT_NUMBERS = 0xA000`, and prepends the
packed points `02 01 00 02` to the deltas `01 01 03 01 02 04`. -/
theorem compileFlagsLayout_witness :
    ((∀ k idx, (([] : List (List ℕ × ℕ)).lookup k = some idx) → idx < 0x1000) ∧
      TupleVariation.compile [("wght", ((0 : ℚ), (1 : ℚ), (1 : ℚ)))]
        [some ((1 : ℤ), (2 : ℤ)), none, some (3, 4)] ["wght"] [] none =
        some ([0, 10, 160, 0, 64, 0], [2, 1, 0, 2, 1, 1, 3, 1, 2, 4])) ∧
      ∃ flags : ℕ,
        ([0, 10, 160, 0, 64, 0] : List ℕ) =
          [([2, 1, 0, 2, 1, 1, 3, 1, 2, 4] : List ℕ).length / 256,
            ([2, 1, 0, 2, 1, 1, 3, 1, 2, 4] : List ℕ).length % 256,
            flags / 256, flags % 256] ++
          (match (([] : List (List ℕ × ℕ)).lookup
              (compileCoord [("wght", ((0 : ℚ), (1 : ℚ), (1 : ℚ)))] ["wght"])) with
           | some _ => ([] : List ℕ)
           | none => compileCoord [("wght", ((0 : ℚ), (1 : ℚ), (1 : ℚ)))] ["wght"]) ++
          ((compileIntermediateCoord [("wght", ((0 : ℚ), (1 : ℚ), (1 : ℚ)))]
            ["wght"]).getD []) ∧
        (flags &&& EMBEDDED_PEAK_TUPLE ≠ 0 ↔
          (([] : List (List ℕ × ℕ)).lookup
            (compileCoord [("wght", ((0 : ℚ), (1 : ℚ), (1 : ℚ)))] ["wght"])) = none) ∧
        (∀ idx, (([] : List (List ℕ × ℕ)).lookup
            (compileCoord [("wght", ((0 : ℚ), (1 : ℚ), (1 : ℚ)))] ["wght"])) = some idx →
          flags &&& 0xFFF = idx) ∧
        (flags &&& PRIVATE_POINT_NUMBERS ≠ 0 ↔ (none : Option (Finset ℕ)) = none) ∧
        ((none : Option (Finset ℕ)) = none →
          ∃ pb db, compilePoints
              (getUsedPoints [some ((1 : ℤ), (2 : ℤ)), none, some (3, 4)])
              ([some ((1 : ℤ), (2 : ℤ)), none, some (3, 4)] : List (Option (ℤ × ℤ))).length
                = some pb ∧
            compileDeltas [some ((1 : ℤ), (2 : ℤ)), none, some (3, 4)]
              (getUsedPoints [some ((1 : ℤ), (2 : ℤ)), none, some (3, 4)]) = some db ∧
            ([2, 1, 0, 2, 1, 1, 3, 1, 2, 4] : List ℕ) = pb ++ db) ∧
        ∀ sp : Finset ℕ, (none : Option (Finset ℕ)) = some sp →
          compileDeltas [some ((1 : ℤ), (2 : ℤ)), none, some (3, 4)] sp =
            some [2, 1, 0, 2, 1, 1, 3, 1, 2, 4] := by
  have h1 : ∀ k idx, (([] : List (List ℕ × ℕ)).lookup k = some idx) → idx < 0x1000 := by
    intro k idx h
    simp [List.lookup] at h
  have hsort : Finset.sort (· ≤ ·)
      (getUsedPoints [some ((1 : ℤ), (2 : ℤ)), none, some (3, 4)]) = [0, 2] := by
    rw [show getUsedPoints [some ((1 : ℤ), (2 : ℤ)), none, some (3, 4)] =
      ({0, 2} : Finset ℕ) from by decide]
    exact sort_eq_of_coe _ _ (by decide) (by decide)
  have hval1 : floatToFixed (1 : ℚ) 14 = 16384 := by
    unfold floatToFixed
    rw [round_eq]
    norm_num
  have hcoord : compileCoord [("wght", ((0 : ℚ), (1 : ℚ), (1 : ℚ)))] ["wght"] =
      [64, 0] := by
    unfold compileCoord packF2Dot14
    simp only [List.lookup, List.map_cons, List.map_nil, List.flatten]
    norm_num [hval1]
    decide
  have hic : compileIntermediateCoord [("wght", ((0 : ℚ), (1 : ℚ), (1 : ℚ)))]
      ["wght"] = none := by
    unfold compileIntermediateCoord
    norm_num [List.lookup, List.any]
  have h2 : TupleVariation.compile [("wght", ((0 : ℚ), (1 : ℚ), (1 : ℚ)))]
      [some ((1 : ℤ), (2 : ℤ)), none, some (3, 4)] ["wght"] [] none =
      some ([0, 10, 160, 0, 64, 0], [2, 1, 0, 2, 1, 1, 3, 1, 2, 4]) := by
    unfold TupleVariation.compile compilePoints compileDeltas
    simp only [hsort, hcoord, hic]
    decide
  exact ⟨⟨h1, h2⟩, compileFlagsLayout _ _ _ _ _ _ _ h1 h2⟩
